import Mathlib

/-!
# Verification of the Sun-Shine-List salary-disclosure pipeline

Shallow embedding of the Python scripts under `API/scripts/`:

* `normalize_employers.py` / `normalize_jobs.py` — string canonicalization,
* `link_persons.py`        — the identity linker (`fast_link_persons`),
* `ingest.py`              — currency cleaning and per-file ingestion,
* `generate_analytics_complex.py` — employer cohort metrics
  (`generate_employer_metrics`).

Modelling conventions:

* pandas floats are modelled by `ℚ`, extended with IEEE special values
  (`PFloat`) exactly where the code can produce non-finite results;
* machine strings are Lean `String`/`List Char`; Python's `str.upper` is
  modelled by `Char.toUpper` (ASCII case map) and Python whitespace by
  `Char.isWhitespace` — every claim below is insensitive to the difference;
* `pandas.sort_values` over several keys is modelled as a stable sort
  (`isort` below), matching pandas' stable lexsort for multi-column
  sorts; the single-column descending sort in the aggregator uses the
  default `kind='quicksort'`, which is *unstable*, so there the model
  (reverse of the stable ascending sort) fixes one admissible equal-key
  order — see the `priorPop` doc comment for what does and does not
  depend on that choice.
-/

/- The Batteries rational operations are `@[irreducible]`, which stops
`decide`-based evaluation of the embedded pipeline on concrete inputs;
witnesses need them to unfold. -/
attribute [local semireducible] Rat.add Rat.sub Rat.mul Rat.inv

/-! ## Generic list utilities -/

/-- Code-point lexicographic comparison of character lists: Python's
string `<`, which is what `pandas.sort_values` applies to an
object-dtype column.  (`String.decidableLT` itself does not evaluate
inside the kernel.) -/
def listLtB : List Char → List Char → Bool
  | [], [] => false
  | [], _ :: _ => true
  | _ :: _, [] => false
  | a :: as, b :: bs =>
      if a.toNat < b.toNat then true
      else if b.toNat < a.toNat then false
      else listLtB as bs

/-- Insert `x` into `l` before the first element `y` with `le x y = true`.
Models the placement performed by a stable insertion sort. -/
def insertIf {α : Type} (le : α → α → Bool) (x : α) : List α → List α
  | [] => [x]
  | y :: ys => if le x y then x :: y :: ys else y :: insertIf le x ys

/-- Stable sort by the boolean relation `le` (insertion sort).  Any stable
sort is extensionally unique, so this models `pandas.sort_values` with a
stable kind. -/
def isort {α : Type} (le : α → α → Bool) (l : List α) : List α :=
  l.foldr (insertIf le) []

/-- `pandas.DataFrame.drop_duplicates(subset=key, keep='first')`:
keep the first occurrence of every key, scanning left to right.
`seen` is the set of keys already emitted. -/
def ddup {α κ : Type} [DecidableEq κ] (key : α → κ) : List α → List κ → List α
  | [], _ => []
  | x :: xs, seen =>
      if key x ∈ seen then ddup key xs seen
      else x :: ddup key xs (key x :: seen)

/-- Running count of `false` entries: models `(~should_link).cumsum()`
with initial accumulator `acc`. -/
def cumFalse (acc : Nat) : List Bool → List Nat
  | [] => []
  | b :: bs =>
      (if b then acc else acc + 1) :: cumFalse (if b then acc else acc + 1) bs

/-! ## Character-level helpers shared by the normalizers -/

/-- Strip characters satisfying `p` from both ends (Python `str.strip()`
with `p = Char.isWhitespace`). -/
def stripBy (p : Char → Bool) (l : List Char) : List Char :=
  (l.dropWhile p).foldr (fun c acc => if p c ∧ acc = [] then [] else c :: acc) []

/-- Python `str.strip()` on `String` (structural, so proofs can evaluate
it; `String.trim` itself is defined by well-founded recursion). -/
def pyStrip (s : String) : String :=
  ⟨stripBy Char.isWhitespace s.data⟩

/-- Python `str.split()` splits on runs of whitespace and discards empty
fields.  `wordsAux l acc` scans `l` with `acc` holding the reversed
current word. -/
def wordsAux : List Char → List Char → List (List Char)
  | [], acc => if acc.isEmpty then [] else [acc.reverse]
  | c :: cs, acc =>
      if c.isWhitespace then
        if acc.isEmpty then wordsAux cs [] else acc.reverse :: wordsAux cs []
      else wordsAux cs (c :: acc)

/-- Python `s.split()`. -/
def pyWords (l : List Char) : List (List Char) := wordsAux l []

/-- Python `" ".join(ws)`. -/
def joinW : List (List Char) → List Char
  | [] => []
  | [w] => w
  | w :: ws => w ++ ' ' :: joinW ws

/-- Replace every whitespace character by `' '` and collapse runs of
whitespace into a single `' '`.  Used only on the specification side of
the refinement theorems ("collapse runs of whitespace to single spaces"). -/
def squeeze : List Char → List Char
  | [] => []
  | c :: cs =>
      let r := squeeze cs
      if c.isWhitespace then
        if r.head? = some ' ' then r else ' ' :: r
      else c :: r

/-- Drop trailing `' '` characters. -/
def rtrim (l : List Char) : List Char :=
  l.foldr (fun c acc => if c = ' ' ∧ acc = [] then [] else c :: acc) []

/-- Drop leading `' '` characters. -/
def ltrim (l : List Char) : List Char := l.dropWhile (· = ' ')

/-- "Collapse whitespace runs to single spaces and trim": the
specification-side formulation of `" ".join(s.split())`. -/
def trimSq (l : List Char) : List Char := ltrim (rtrim (squeeze l))

/-! ## `normalize_employers.normalize_string` -/

namespace NormEmp

/-- The character class kept by `re.sub(r'[^A-Z0-9\s-]', '', s)`:
uppercase letters, digits, whitespace and the dash. -/
def keepE (c : Char) : Bool :=
  ('A' ≤ c ∧ c ≤ 'Z') ∨ ('0' ≤ c ∧ c ≤ '9') ∨ c.isWhitespace ∨ c = '-'

/-- `normalize_employers.normalize_string` on `List Char`:
uppercase, delete characters outside `[A-Z0-9\s-]`, then
`" ".join(s.split())`. -/
def normChars (l : List Char) : List Char :=
  joinW (pyWords ((l.map Char.toUpper).filter keepE))

/-- `normalize_employers.normalize_string`.  Non-string input (the
`isinstance` guard) is outside the `String` domain and maps to `""`
before this function is ever applied. -/
def normalize_string (s : String) : String :=
  ⟨normChars s.data⟩

/-- Specification-side formulation of the *amended* employer rules:
uppercase; drop characters outside uppercase letters, digits, whitespace
and dash; collapse whitespace runs to single spaces; trim.  (No
boilerplate-token stripping.) -/
def normAmendedChars (l : List Char) : List Char :=
  trimSq ((l.map Char.toUpper).filter keepE)

/-- The amended-specification normalizer as a `String` function. -/
def normAmended (s : String) : String :=
  ⟨normAmendedChars s.data⟩

/-- The legal-entity boilerplate tokens named by the specification. -/
def boilerplate : List (List Char) :=
  ["INC".data, "LTD".data, "LIMITED".data, "CORP".data,
   "CORPORATION".data, "THE".data, "OF".data, "AND".data]

/-- The character class the specification claims: uppercase letters,
digits and whitespace only (no dash). -/
def keepSpec (c : Char) : Bool :=
  ('A' ≤ c ∧ c ≤ 'Z') ∨ ('0' ≤ c ∧ c ≤ '9') ∨ c.isWhitespace

/-- The employer normalizer exactly as the claim C4 words it: uppercase;
strip the boilerplate tokens as whole words; drop characters outside
`[A-Z0-9` whitespace`]`; collapse whitespace; trim. -/
def normSpecC4 (s : String) : String :=
  let up := s.data.map Char.toUpper
  let stripped := joinW ((pyWords up).filter (fun w => ¬ w ∈ boilerplate))
  ⟨joinW (pyWords (stripped.filter keepSpec))⟩

end NormEmp

/-! ## `normalize_jobs.normalize_string` -/

namespace NormJobs

/-- `str.replace(' / ', '/')`: non-overlapping left-to-right replacement. -/
def replSlash : List Char → List Char
  | ' ' :: '/' :: ' ' :: rest => '/' :: replSlash rest
  | c :: rest => c :: replSlash rest
  | [] => []

/-- `str.replace(' - ', ' ')`: non-overlapping left-to-right replacement. -/
def replDash : List Char → List Char
  | ' ' :: '-' :: ' ' :: rest => ' ' :: replDash rest
  | c :: rest => c :: replDash rest
  | [] => []

/-- The character class kept by `re.sub(r'[^A-Z0-9\s/]', '', s)`. -/
def keepJ (c : Char) : Bool :=
  ('A' ≤ c ∧ c ≤ 'Z') ∨ ('0' ≤ c ∧ c ≤ '9') ∨ c.isWhitespace ∨ c = '/'

/-- `normalize_jobs.normalize_string` on `List Char`: uppercase,
`' / '→'/'`, `' - '→' '`, `','→' '`, delete characters outside
`[A-Z0-9\s/]`, then `" ".join(s.split())`. -/
def normChars (l : List Char) : List Char :=
  let s1 := replDash (replSlash (l.map Char.toUpper))
  let s2 := s1.map (fun c => if c = ',' then ' ' else c)
  joinW (pyWords (s2.filter keepJ))

/-- `normalize_jobs.normalize_string`. -/
def normalize_string (s : String) : String :=
  ⟨normChars s.data⟩

end NormJobs

/-! ## `link_persons.fast_link_persons`

The linker consumes the enriched fact-candidate stream.  Only the columns
read by `fast_link_persons` are modelled (`name_freq` and
`match_confidence` are computed by the script but never influence the
linking decision, and the temporary `prev_*`/`link_mask` columns are
dropped; the final `person_id = person_group_id.astype(str)` is an
injective relabelling of the group id, so theorems are stated on the
group id). -/

namespace LinkPersons

/-- One row of `stg_rows_enriched_2` as read by `fast_link_persons`. -/
structure LinkRec where
  first_name : String
  last_name : String
  employer_id : Nat
  year : Int
  total_comp : ℚ
deriving DecidableEq

/-- `(df['first_name'] + " " + df['last_name']).astype(str).str.upper().str.strip()`. -/
def name_clean (r : LinkRec) : String :=
  pyStrip ⟨(r.first_name ++ " " ++ r.last_name).data.map Char.toUpper⟩

/-- `df.sort_values(by=['name_clean', 'year', 'total_comp'])`:
lexicographic comparison on the three sort keys. -/
def lexLeB (a b : LinkRec) : Bool :=
  listLtB (name_clean a).data (name_clean b).data ||
    (decide (name_clean a = name_clean b) &&
      (decide (a.year < b.year) ||
        (decide (a.year = b.year) && decide (a.total_comp ≤ b.total_comp))))

/-- `should_link = name_match & emp_match & (year_diff <= 2)` for a row `x`
whose shifted predecessor is `p`. -/
def shouldLinkB (p x : LinkRec) : Bool :=
  decide (name_clean x = name_clean p) &&
    decide (x.employer_id = p.employer_id) &&
    decide (x.year - p.year ≤ 2)

/-- The `should_link` column for the tail of the frame, `p` being the
row shifted in from above. -/
def slTail (p : LinkRec) : List LinkRec → List Bool
  | [] => []
  | x :: xs => shouldLinkB p x :: slTail x xs

/-- The full `should_link` column.  Row 0 compares against the shifted-in
`NaN` row, so every comparison is false there. -/
def slVec : List LinkRec → List Bool
  | [] => []
  | x :: xs => false :: slTail x xs

/-- `fast_link_persons`: sort by (name, year, total_comp), compute
`should_link` against the previous row, and assign
`person_group_id = (~should_link).cumsum()`. -/
def fast_link_persons (df : List LinkRec) : List (LinkRec × Nat) :=
  let sorted := isort lexLeB df
  sorted.zip (cumFalse 0 (slVec sorted))

/-- Chain-scan formulation of the same assignment: `p` is the previous
record and `g` the person id of the current chain.  Proved equal to the
`cumsum` formulation below. -/
def linkScanAux (p : LinkRec) (g : Nat) : List LinkRec → List (LinkRec × Nat)
  | [] => []
  | x :: xs =>
      if shouldLinkB p x then (x, g) :: linkScanAux x g xs
      else (x, g + 1) :: linkScanAux x (g + 1) xs

end LinkPersons

/-! ## `ingest.py` — currency cleaning and the per-file ingest loop -/

namespace Ingest

/-- A raw CSV cell as seen by `clean_currency`: either a string or an
already-numeric value (the `isinstance(x, str)` branch split). -/
inductive CellVal : Type
  | str (s : String)
  | num (q : ℚ)
deriving DecidableEq

/-- The decimal fragment of Python's `float()` constructor: an optional
sign, then digits with at most one decimal point and at least one digit.
Exponent, `inf`/`nan` and underscore forms are not modelled; every string
outside this fragment (and outside those forms), e.g. `"N/A"`, makes
`float()` raise `ValueError`, here `none`. -/
def parseDec (l : List Char) : Option ℚ :=
  let (sign, l') : ℚ × List Char :=
    match l with
    | '-' :: r => (-1, r)
    | '+' :: r => (1, r)
    | r => (1, r)
  let (ip, rest) := l'.span (· ≠ '.')
  let fp : Option (List Char) :=
    match rest with
    | [] => some []
    | _ :: r => if r.contains '.' then none else some r
  match fp with
  | none => none
  | some f =>
      if ip.all Char.isDigit ∧ f.all Char.isDigit ∧ (ip ++ f) ≠ [] then
        let ipv : ℚ := ip.foldl (fun a c => a * 10 + (c.toNat - '0'.toNat)) 0
        let fpv : ℚ := f.foldl (fun a c => a * 10 + (c.toNat - '0'.toNat)) 0
        some (sign * (ipv + fpv / (10 : ℚ) ^ f.length))
      else none

/-- `ingest.clean_currency`.  A raised `ValueError` is modelled as
`Except.error`. -/
def clean_currency : CellVal → Except String ℚ
  | .num q => .ok q
  | .str x =>
      let cleaned := stripBy Char.isWhitespace
        (x.data.filter (fun c => c ≠ '$' ∧ c ≠ ','))
      if cleaned = ['-'] ∨ cleaned = [] then .ok 0
      else
        match parseDec cleaned with
        | some q => .ok q
        | none => .error "could not convert string to float"

/-- One raw row of an input CSV after the column-rename step (the
required-column schema check of `process_file` is a whole-batch property
and is not exercised by any claim). -/
structure RawRow where
  sector : String
  last_name : String
  first_name : String
  employer : String
  job_title : String
  salary : CellVal
  benefits : CellVal
deriving DecidableEq

/-- One staged row of `stg_rows.parquet`. -/
structure StgRow where
  year : Int
  sector : String
  last_name : String
  first_name : String
  employer : String
  job_title : String
  salary : ℚ
  benefits : ℚ
  total_comp : ℚ
deriving DecidableEq

/-- The staged row built from a raw row once both currency cells cleaned
to `s` and `b`. -/
def stgOf (year : Int) (r : RawRow) (s b : ℚ) : StgRow :=
  { year := year
    sector := r.sector
    last_name := pyStrip r.last_name
    first_name := pyStrip r.first_name
    employer := pyStrip r.employer
    job_title := pyStrip r.job_title
    salary := s
    benefits := b
    total_comp := s + b }

/-- `ingest.process_file` on a file that passed the schema check: clean
both currency columns of every row; an unparseable cell raises, aborting
the whole file (`Except.error`). -/
def process_file (year : Int) (rows : List RawRow) : Except String (List StgRow) :=
  rows.mapM (fun r => do
    let s ← clean_currency r.salary
    let b ← clean_currency r.benefits
    .ok (stgOf year r s b))

/-- Whether a computation succeeded (no exception was raised). -/
def isOkB {ε α : Type} : Except ε α → Bool
  | .ok _ => true
  | .error _ => false

/-- The per-file contribution to the staged output: the file's rows on
success, nothing when processing raised. -/
def fileRows (f : Int × List RawRow) : List StgRow :=
  match process_file f.1 f.2 with
  | .ok rows => rows
  | .error _ => []

/-- The module-level ingest loop: each file is processed inside
`try/except`, so a file whose processing raised contributes nothing
while the other files proceed. -/
def ingest (files : List (Int × List RawRow)) : List StgRow :=
  files.foldl
    (fun acc f =>
      match process_file f.1 f.2 with
      | .ok rows => acc ++ rows
      | .error _ => acc)
    []

end Ingest

/-! ## `generate_analytics_complex.generate_employer_metrics`

Float arithmetic is modelled by exact rationals extended with the IEEE
special values that the growth division can actually produce. -/

/-- A pandas float: `nan`, `±inf`, or a finite value. -/
inductive PFloat : Type
  | nan
  | ninf
  | pinf
  | val (q : ℚ)
deriving DecidableEq

namespace PFloat

def isNaN : PFloat → Bool
  | nan => true
  | _ => false

def isFin : PFloat → Bool
  | val _ => true
  | _ => false

/-- IEEE subtraction on the modelled values. -/
def sub : PFloat → PFloat → PFloat
  | nan, _ => nan
  | _, nan => nan
  | pinf, pinf => nan
  | pinf, _ => pinf
  | ninf, ninf => nan
  | ninf, _ => ninf
  | val _, pinf => ninf
  | val _, ninf => pinf
  | val a, val b => val (a - b)

/-- IEEE division on the modelled values (numpy semantics: `x / 0.0` is
`±inf` for `x ≠ 0` and `nan` for `0 / 0`). -/
def div : PFloat → PFloat → PFloat
  | nan, _ => nan
  | _, nan => nan
  | pinf, pinf => nan
  | pinf, ninf => nan
  | ninf, pinf => nan
  | ninf, ninf => nan
  | pinf, val b => if b < 0 then ninf else pinf
  | ninf, val b => if b < 0 then pinf else ninf
  | val _, pinf => val 0
  | val _, ninf => val 0
  | val a, val b =>
      if b = 0 then (if a = 0 then nan else if 0 < a then pinf else ninf)
      else val (a / b)

/-- IEEE addition, for the even-length median midpoint. -/
def add : PFloat → PFloat → PFloat
  | nan, _ => nan
  | _, nan => nan
  | pinf, ninf => nan
  | ninf, pinf => nan
  | pinf, _ => pinf
  | _, pinf => pinf
  | ninf, _ => ninf
  | _, ninf => ninf
  | val a, val b => val (a + b)

def half : PFloat → PFloat
  | nan => nan
  | pinf => pinf
  | ninf => ninf
  | val q => val (q / 2)

/-- Total order used to sort for the median (`nan` entries are filtered
out before sorting, so their position is irrelevant). -/
def leB : PFloat → PFloat → Bool
  | nan, _ => true
  | _, nan => false
  | ninf, _ => true
  | _, ninf => false
  | _, pinf => true
  | pinf, _ => false
  | val a, val b => decide (a ≤ b)

end PFloat

/-- `pandas.Series.median()` with the default `skipna=True`: drop `NaN`,
sort, and take the middle element (or the mean of the two middle
elements); the median of an empty series is `NaN`. -/
def pfMedian (l : List PFloat) : PFloat :=
  let v := l.filter (fun x => ¬ x.isNaN)
  let s := isort PFloat.leB v
  let n := s.length
  if n = 0 then PFloat.nan
  else if n % 2 = 1 then s.getD (n / 2) PFloat.nan
  else PFloat.half (PFloat.add (s.getD (n / 2 - 1) PFloat.nan) (s.getD (n / 2) PFloat.nan))

namespace Analytics

/-- One row of `fact_comp.parquet` as read by
`generate_employer_metrics` (the display columns it never touches are
omitted). -/
structure Fact where
  year : Int
  person_id : String
  employer_id : Nat
  total_comp : ℚ
deriving DecidableEq

/-- `pandas.Series.quantile(p)` with the default linear interpolation. -/
def rquantile (p : ℚ) (xs : List ℚ) : ℚ :=
  let s := isort (fun a b => decide (a ≤ b)) xs
  let n := s.length
  if n = 0 then 0
  else
    let h : ℚ := p * ((n : ℚ) - 1)
    let i : Nat := h.floor.toNat
    let lo := s.getD i 0
    let hi := s.getD (min (i + 1) (n - 1)) 0
    lo + (hi - lo) * (h - (i : ℚ))

/-- `sorted(df['year'].unique())`. -/
def uniqueYears (df : List Fact) : List Int :=
  isort (fun a b => decide (a ≤ b)) (df.map (·.year)).dedup

/-- `df[df['year'] == year]`. -/
def currFacts (df : List Fact) (y : Int) : List Fact :=
  df.filter (fun f => f.year = y)

/-- The `(person_id, employer_id)` join/dedup key. -/
def pkey (f : Fact) : String × Nat := (f.person_id, f.employer_id)

/-- The prior population for year `y`: all strictly earlier records,
sorted by year descending, then
`drop_duplicates(['person_id','employer_id'], keep='first')`.
Rows whose `year` is in `years[:idx]` are exactly the rows with
`year < y`, since `years` lists every distinct year.

The script sorts with `sort_values('year', ascending=False)` under the
default `kind='quicksort'`, an *unstable* sort: the relative order of
rows with equal year — and hence which exact duplicate of a
`(person_id, employer_id, year)` triple survives the `keep='first'`
dedup — is not specified by the program.  This model fixes one
admissible order (the reverse of the stable ascending sort).  The
claims proved from this definition use only properties common to every
admissible order: the dedup keeps at most one row per key
(`matchesFor_priorPop_le_one`) and every kept row is a record of `df`
from a year before `y` (`mem_priorPop`). -/
def priorPop (df : List Fact) (y : Int) : List Fact :=
  ddup pkey ((isort (fun a b => decide (a.year ≤ b.year)) (df.filter (fun f => f.year < y))).reverse) []

/-- All rows of the prior population carrying the key of `r`. -/
def matchesFor (pp : List Fact) (r : Fact) : List Fact :=
  pp.filter (fun q => pkey q = pkey r)

/-- All records of `df` strictly before year `y` carrying key `(p, e)`:
the candidates from which the prior population picks one row. -/
def priorCands (df : List Fact) (y : Int) (p : String) (e : Nat) : List Fact :=
  df.filter (fun f => f.year < y ∧ pkey f = (p, e))

/-- The largest year occurring in a list of facts (meaningful only for
nonempty lists). -/
def maxYearOf : List Fact → Int
  | [] => 0
  | [f] => f.year
  | f :: l => max f.year (maxYearOf l)

/-- `curr_df.merge(prev_df, on=['employer_id','person_id'], how='left')`:
every current row paired with each of its prior matches, or with `none`
when it has no match. -/
def mergedRows (curr pp : List Fact) : List (Fact × Option Fact) :=
  curr.flatMap (fun r =>
    let ms := matchesFor pp r
    if ms.isEmpty then [(r, none)] else ms.map (fun q => (r, some q)))

/-- `(total_comp - total_comp_prev) / total_comp_prev` in float
arithmetic; a missing prior is `NaN` and propagates. -/
def growthOf (rc : Fact × Option Fact) : PFloat :=
  let prior : PFloat :=
    match rc.2 with
    | some q => .val q.total_comp
    | none => .nan
  PFloat.div (PFloat.sub (.val rc.1.total_comp) prior) prior

/-- Distinct employer ids of a frame, ascending (`groupby` key order). -/
def empIds (l : List Fact) : List Nat :=
  isort (fun a b => decide (a ≤ b)) (l.map (·.employer_id)).dedup

/-- One record of `employer_metrics.json`. -/
structure EmpMetric where
  employer_id : Nat
  year : Int
  headcount : Nat
  mean_pay : ℚ
  p50 : ℚ
  p75 : ℚ
  p90 : ℚ
  p99 : ℚ
  stayed_count : Nat
  retention_rate : ℚ
  growth_median : PFloat
deriving DecidableEq

/-- The pay-stat block of `pay_map[(emp_id, year)]` together with the
retention fields, for an employer of a non-first year. -/
def metricLater (df : List Fact) (y : Int) (merged : List (Fact × Option Fact)) (e : Nat) : EmpMetric :=
  let rows := merged.filter (fun rc => rc.1.employer_id = e)
  let stayed := rows.countP (fun rc => rc.2.isSome)
  let gmed := pfMedian (rows.map growthOf)
  let comps := (df.filter (fun f => f.employer_id = e ∧ f.year = y)).map (·.total_comp)
  let hc := comps.length
  { employer_id := e
    year := y
    headcount := hc
    mean_pay := if hc = 0 then 0 else comps.sum / (hc : ℚ)
    p50 := rquantile (1 / 2) comps
    p75 := rquantile (3 / 4) comps
    p90 := rquantile (9 / 10) comps
    p99 := rquantile (99 / 100) comps
    stayed_count := stayed
    retention_rate := if 0 < hc then (stayed : ℚ) / (hc : ℚ) else 0
    growth_median := if gmed.isNaN then .val 0 else gmed }

/-- The `idx > 0` branch of the year loop. -/
def metricsForYearLater (df : List Fact) (y : Int) : List EmpMetric :=
  let curr := currFacts df y
  let merged := mergedRows curr (priorPop df y)
  (empIds curr).map (metricLater df y merged)

/-- The `idx == 0` branch: pay stats with zero retention/growth. -/
def metricFirst (df : List Fact) (y : Int) (e : Nat) : EmpMetric :=
  let comps := (df.filter (fun f => f.employer_id = e ∧ f.year = y)).map (·.total_comp)
  let hc := comps.length
  { employer_id := e
    year := y
    headcount := hc
    mean_pay := if hc = 0 then 0 else comps.sum / (hc : ℚ)
    p50 := rquantile (1 / 2) comps
    p75 := rquantile (3 / 4) comps
    p90 := rquantile (9 / 10) comps
    p99 := rquantile (99 / 100) comps
    stayed_count := 0
    retention_rate := 0
    growth_median := .val 0 }

/-- `generate_employer_metrics`: the flat list `final_records` (its final
regrouping into a map keyed by employer id keeps every record and is not
modelled). -/
def generate_employer_metrics (df : List Fact) : List EmpMetric :=
  match uniqueYears df with
  | [] => []
  | y0 :: rest =>
      (empIds (currFacts df y0)).map (metricFirst df y0) ++
        rest.flatMap (metricsForYearLater df)

/-- The earliest year present in the dataset. -/
def minYearD (df : List Fact) : Int :=
  (uniqueYears df).headD 0

end Analytics

/-! ## Lemmas about the generic list utilities -/

section IsortLemmas

variable {α : Type} {le : α → α → Bool}

theorem mem_insertIf {x y : α} {l : List α} :
    y ∈ insertIf le x l ↔ y = x ∨ y ∈ l := by
  induction l with
  | nil => simp [insertIf]
  | cons a l ih =>
      by_cases h : le x a = true
      · simp [insertIf, h]
      · simp only [insertIf, if_neg h, List.mem_cons, ih]
        tauto

theorem mem_isort {x : α} {l : List α} : x ∈ isort le l ↔ x ∈ l := by
  induction l with
  | nil => simp [isort]
  | cons a l ih =>
      simp only [isort, List.foldr_cons] at *
      rw [mem_insertIf, ih, List.mem_cons]

theorem length_insertIf (x : α) (l : List α) :
    (insertIf le x l).length = l.length + 1 := by
  induction l with
  | nil => rfl
  | cons a l ih =>
      by_cases h : le x a = true
      · simp [insertIf, h]
      · simp [insertIf, h, ih]

theorem length_isort (l : List α) : (isort le l).length = l.length := by
  induction l with
  | nil => rfl
  | cons a l ih => simp [isort, length_insertIf, List.foldr_cons] at *; omega

theorem pairwise_insertIf
    (htot : ∀ a b, le a b = false → le b a = true)
    (htrans : ∀ a b c, le a b = true → le b c = true → le a c = true)
    {x : α} {l : List α} (hl : l.Pairwise (fun a b => le a b = true)) :
    (insertIf le x l).Pairwise (fun a b => le a b = true) := by
  induction l with
  | nil => simp [insertIf]
  | cons a l ih =>
      rcases List.pairwise_cons.mp hl with ⟨ha, hl'⟩
      by_cases h : le x a = true
      · rw [insertIf, if_pos h]
        refine List.pairwise_cons.mpr ⟨?_, hl⟩
        intro b hb
        rcases List.mem_cons.mp hb with rfl | hb
        · exact h
        · exact htrans x a b h (ha b hb)
      · rw [insertIf, if_neg h]
        refine List.pairwise_cons.mpr ⟨?_, ih hl'⟩
        intro b hb
        rcases mem_insertIf.mp hb with rfl | hb
        · exact htot _ a (by simpa using h)
        · exact ha b hb

theorem pairwise_isort
    (htot : ∀ a b, le a b = false → le b a = true)
    (htrans : ∀ a b c, le a b = true → le b c = true → le a c = true)
    (l : List α) :
    (isort le l).Pairwise (fun a b => le a b = true) := by
  induction l with
  | nil => exact List.Pairwise.nil
  | cons a l ih => exact pairwise_insertIf htot htrans ih

theorem filter_insertIf_neg {p : α → Bool} {x : α} (hx : p x = false) (l : List α) :
    (insertIf le x l).filter p = l.filter p := by
  induction l with
  | nil => simp [insertIf, hx]
  | cons a l ih =>
      by_cases h : le x a = true
      · simp [insertIf, h, hx]
      · by_cases hp : p a = true <;> simp [insertIf, h, hp, ih]

theorem filter_insertIf_pos {p : α → Bool} {x : α} (hx : p x = true)
    (hw : ∀ y, le x y = false → p y = false) (l : List α) :
    (insertIf le x l).filter p = x :: l.filter p := by
  induction l with
  | nil => simp [insertIf, hx]
  | cons a l ih =>
      by_cases h : le x a = true
      · simp [insertIf, h, hx]
      · have hpa : p a = false := hw a (by simpa using h)
        simp [insertIf, h, hpa, ih]

/-- Stability of `isort` seen through a filter: if no element satisfying
`p` can be strictly preceded (in the `le` sense) by one not satisfying
`p`, the `p`-elements keep their input order. -/
theorem filter_isort {p : α → Bool}
    (H : ∀ x y, p x = true → le x y = false → p y = false) (l : List α) :
    (isort le l).filter p = l.filter p := by
  induction l with
  | nil => rfl
  | cons a l ih =>
      show (insertIf le a (isort le l)).filter p = _
      by_cases hp : p a = true
      · rw [filter_insertIf_pos hp (fun y hle => H a y hp hle) (isort le l), ih,
          List.filter_cons_of_pos hp]
      · rw [filter_insertIf_neg (by simpa using hp) (isort le l), ih,
          List.filter_cons_of_neg (by simpa using hp)]

end IsortLemmas

theorem listLtB_self : ∀ l : List Char, listLtB l l = false := by
  intro l
  induction l with
  | nil => rfl
  | cons a as ih => simp [listLtB, ih]

section DdupLemmas

variable {α κ : Type} [DecidableEq κ] {key : α → κ}

theorem mem_of_mem_ddup {x : α} : ∀ {l : List α} {seen : List κ},
    x ∈ ddup key l seen → x ∈ l := by
  intro l
  induction l with
  | nil => intro seen h; simpa [ddup] using h
  | cons a l ih =>
      intro seen h
      rw [ddup] at h
      split at h
      · exact List.mem_cons_of_mem a (ih h)
      · rcases List.mem_cons.mp h with rfl | h
        · exact List.mem_cons_self _ _
        · exact List.mem_cons_of_mem a (ih h)

theorem filter_ddup_of_mem {k : κ} : ∀ {l : List α} {seen : List κ}, k ∈ seen →
    (ddup key l seen).filter (fun x => key x = k) = [] := by
  intro l
  induction l with
  | nil => intro seen _; rfl
  | cons a l ih =>
      intro seen hk
      rw [ddup]
      split
      · exact ih hk
      · rename_i hmem
        have hne : ¬ key a = k := fun h => hmem (h ▸ hk)
        rw [List.filter_cons_of_neg (by simp [hne]),
          ih (List.mem_cons_of_mem _ hk)]

theorem filter_ddup_of_not_mem {k : κ} : ∀ {l : List α} {seen : List κ}, k ∉ seen →
    (ddup key l seen).filter (fun x => key x = k) =
      (l.find? (fun x => key x = k)).toList := by
  intro l
  induction l with
  | nil => intro seen _; rfl
  | cons a l ih =>
      intro seen hk
      rw [ddup]
      by_cases hak : key a = k
      · have hmem : key a ∉ seen := by rw [hak]; exact hk
        rw [if_neg hmem, List.filter_cons_of_pos (by simp [hak]),
          List.find?_cons_of_pos _ (by simp [hak]),
          filter_ddup_of_mem (by rw [hak]; exact List.mem_cons_self k seen)]
        rfl
      · rw [List.find?_cons_of_neg _ (by simp [hak])]
        split
        · exact ih hk
        · rw [List.filter_cons_of_neg (by simp [hak])]
          refine ih ?_
          simp only [List.mem_cons]
          rintro (rfl | h)
          · exact hak rfl
          · exact hk h

end DdupLemmas

section CumFalseLemmas

theorem length_cumFalse (acc : Nat) (bs : List Bool) :
    (cumFalse acc bs).length = bs.length := by
  induction bs generalizing acc with
  | nil => rfl
  | cons b bs ih => simp [cumFalse, ih]

theorem getElem_cumFalse : ∀ (bs : List Bool) (acc : Nat) (i : Nat)
    (h : i < (cumFalse acc bs).length),
    (cumFalse acc bs)[i] = acc + (bs.take (i + 1)).count false := by
  intro bs
  induction bs with
  | nil => intro acc i h; simp [cumFalse] at h
  | cons b bs ih =>
      intro acc i h
      cases i with
      | zero =>
          cases b <;> simp [cumFalse, List.count_cons]
      | succ i =>
          have h' : i < (cumFalse (if b then acc else acc + 1) bs).length := by
            simpa [cumFalse] using h
          have ihh := ih (if b then acc else acc + 1) i h'
          simp only [cumFalse, List.getElem_cons_succ, ihh, List.take_succ_cons,
            List.count_cons]
          cases b <;> simp <;> omega

end CumFalseLemmas

/-! ## Lemmas about the identity linker -/

namespace LinkPersons

theorem length_slTail : ∀ (xs : List LinkRec) (p : LinkRec),
    (slTail p xs).length = xs.length := by
  intro xs
  induction xs with
  | nil => intro p; rfl
  | cons x xs ih => intro p; simp [slTail, ih]

theorem length_slVec (l : List LinkRec) : (slVec l).length = l.length := by
  cases l with
  | nil => rfl
  | cons x xs => simp [slVec, length_slTail]

/-- `should_link` unpacked into its three conditions. -/
theorem shouldLinkB_iff {p x : LinkRec} :
    shouldLinkB p x = true ↔
      name_clean x = name_clean p ∧ x.employer_id = p.employer_id ∧
        x.year - p.year ≤ 2 := by
  simp [shouldLinkB, Bool.and_eq_true, decide_eq_true_eq, and_assoc]

/-- The `cumsum` formulation of group ids agrees with the sequential
chain scan. -/
theorem zip_cumFalse_eq_scan : ∀ (xs : List LinkRec) (p : LinkRec) (acc : Nat),
    xs.zip (cumFalse acc (slTail p xs)) = linkScanAux p acc xs := by
  intro xs
  induction xs with
  | nil => intro p acc; rfl
  | cons x xs ih =>
      intro p acc
      simp only [slTail, cumFalse, List.zip_cons_cons, linkScanAux]
      by_cases h : shouldLinkB p x = true
      · simp [h, ih]
      · simp [h, ih]

/-- `fast_link_persons` as a head record plus a chain scan. -/
theorem fast_link_eq_scan (df : List LinkRec) :
    fast_link_persons df =
      match isort lexLeB df with
      | [] => []
      | x :: xs => (x, 1) :: linkScanAux x 1 xs := by
  unfold fast_link_persons
  cases h : isort lexLeB df with
  | nil => rfl
  | cons x xs =>
      simp only [slVec, cumFalse, List.zip_cons_cons]
      rw [zip_cumFalse_eq_scan]
      norm_num

/-- Within a chain scan started at id `g` after record `p`, every id is
at least `g`, and a record keeping id `g` extends `p`'s chain: it has
`p`'s employer and name key. -/
theorem linkScanAux_inv : ∀ (xs : List LinkRec) (p : LinkRec) (g : Nat)
    (rc : LinkRec × Nat), rc ∈ linkScanAux p g xs →
    g ≤ rc.2 ∧ (rc.2 = g →
      rc.1.employer_id = p.employer_id ∧ name_clean rc.1 = name_clean p) := by
  intro xs
  induction xs with
  | nil => intro p g rc h; simp [linkScanAux] at h
  | cons x xs ih =>
      intro p g rc hmem
      rw [linkScanAux] at hmem
      by_cases h : shouldLinkB p x = true
      · rcases shouldLinkB_iff.mp h with ⟨hn, he, _⟩
        rw [if_pos h] at hmem
        rcases List.mem_cons.mp hmem with rfl | hmem
        · exact ⟨le_refl g, fun _ => ⟨he, hn⟩⟩
        · have hx := ih x g rc hmem
          refine ⟨hx.1, fun hg => ?_⟩
          have h2 := hx.2 hg
          exact ⟨h2.1.trans he, h2.2.trans hn⟩
      · rw [if_neg h] at hmem
        rcases List.mem_cons.mp hmem with rfl | hmem
        · exact ⟨Nat.le_succ g, fun hgg => absurd hgg (by omega)⟩
        · have hx := ih x (g + 1) rc hmem
          refine ⟨le_trans (Nat.le_succ g) hx.1, fun hg => ?_⟩
          have := hx.1
          omega

/-- Two records of one chain scan that share a group id share employer
and name key. -/
theorem linkScanAux_same_gid : ∀ (xs : List LinkRec) (p : LinkRec) (g : Nat)
    (a b : LinkRec × Nat), a ∈ linkScanAux p g xs → b ∈ linkScanAux p g xs →
    a.2 = b.2 →
    a.1.employer_id = b.1.employer_id ∧ name_clean a.1 = name_clean b.1 := by
  intro xs
  induction xs with
  | nil => intro p g a b ha _ _; simp [linkScanAux] at ha
  | cons x xs ih =>
      intro p g a b ha hb hg
      rw [linkScanAux] at ha hb
      by_cases h : shouldLinkB p x = true
      · rw [if_pos h] at ha hb
        rcases List.mem_cons.mp ha with rfl | ha <;>
          rcases List.mem_cons.mp hb with rfl | hb
        · exact ⟨rfl, rfl⟩
        · have hbv := (linkScanAux_inv xs x g b hb).2 (by omega)
          exact ⟨hbv.1.symm, hbv.2.symm⟩
        · have hav := (linkScanAux_inv xs x g a ha).2 (by omega)
          exact hav
        · exact ih x g a b ha hb hg
      · rw [if_neg h] at ha hb
        rcases List.mem_cons.mp ha with rfl | ha <;>
          rcases List.mem_cons.mp hb with rfl | hb
        · exact ⟨rfl, rfl⟩
        · have hbv := (linkScanAux_inv xs x (g + 1) b hb).2 (by omega)
          exact ⟨hbv.1.symm, hbv.2.symm⟩
        · have hav := (linkScanAux_inv xs x (g + 1) a ha).2 (by omega)
          exact hav
        · exact ih x (g + 1) a b ha hb hg

end LinkPersons

/-! ## Claims C1–C3: the identity linker -/

open LinkPersons in
/-- C1: two records with the same normalized name key and the same
`employer_id` link into one person chain when their year gap is exactly
2, and never when it is 3 or more, regardless of every other field. -/
theorem claim_C1 (r1 r2 : LinkRec)
    (hname : name_clean r1 = name_clean r2)
    (hemp : r1.employer_id = r2.employer_id) :
    (r2.year - r1.year = 2 →
      (fast_link_persons [r1, r2]).map Prod.snd = [1, 1]) ∧
    (3 ≤ r2.year - r1.year →
      (fast_link_persons [r1, r2]).map Prod.snd = [1, 2]) := by
  constructor <;> intro hgap
  all_goals
    have hy : r1.year < r2.year := by omega
    have hlex : lexLeB r1 r2 = true := by
      simp [lexLeB, hname, listLtB_self, hy]
    have hsort : isort lexLeB [r1, r2] = [r1, r2] := by
      simp [isort, insertIf, hlex]
  · have hsl : shouldLinkB r1 r2 = true := by
      refine shouldLinkB_iff.mpr ⟨hname.symm, hemp.symm, by omega⟩
    simp [fast_link_persons, hsort, slVec, slTail, hsl, cumFalse]
  · have hsl : shouldLinkB r1 r2 = false := by
      rw [Bool.eq_false_iff]
      intro hc
      exact absurd (shouldLinkB_iff.mp hc).2.2 (by omega)
    simp [fast_link_persons, hsort, slVec, slTail, hsl, cumFalse]

open LinkPersons in
/-- Witness for C1 at concrete records: `"John Smith"` at employer 7 in
1996 and 1998 (gap 2) links; in 1996 and 1999 (gap 3) it does not. -/
theorem claim_C1_witness :
    (fast_link_persons [⟨"John", "Smith", 7, 1996, 120⟩,
        ⟨"John", "Smith", 7, 1998, 130⟩]).map Prod.snd = [1, 1] ∧
    (fast_link_persons [⟨"John", "Smith", 7, 1996, 120⟩,
        ⟨"John", "Smith", 7, 1999, 130⟩]).map Prod.snd = [1, 2] := by
  constructor
  · exact (claim_C1 ⟨"John", "Smith", 7, 1996, 120⟩ ⟨"John", "Smith", 7, 1998, 130⟩
      (by decide) (by decide)).1 (by decide)
  · exact (claim_C1 ⟨"John", "Smith", 7, 1996, 120⟩ ⟨"John", "Smith", 7, 1999, 130⟩
      (by decide) (by decide)).2 (by decide)

open LinkPersons in
/-- C2: linker precision invariant — on every input stream, two output
records sharing a person (group) id share both the employer id and the
normalized name key; equivalently, chains never mix employers or name
keys, so records with different employers never share a person id. -/
theorem claim_C2 (df : List LinkRec) (a b : LinkRec × Nat)
    (ha : a ∈ fast_link_persons df) (hb : b ∈ fast_link_persons df)
    (hg : a.2 = b.2) :
    a.1.employer_id = b.1.employer_id ∧ name_clean a.1 = name_clean b.1 := by
  rw [fast_link_eq_scan] at ha hb
  cases h : isort lexLeB df with
  | nil => rw [h] at ha; simp at ha
  | cons x xs =>
      rw [h] at ha hb
      rcases List.mem_cons.mp ha with rfl | ha <;>
        rcases List.mem_cons.mp hb with rfl | hb
      · exact ⟨rfl, rfl⟩
      · have hbv := (linkScanAux_inv xs x 1 b hb).2 (by omega)
        exact ⟨hbv.1.symm, hbv.2.symm⟩
      · exact (linkScanAux_inv xs x 1 a ha).2 (by omega)
      · exact linkScanAux_same_gid xs x 1 a b ha hb hg

open LinkPersons in
/-- Witness for C2 at a concrete two-record linked stream. -/
theorem claim_C2_witness :
    (⟨"John", "Smith", 7, 1996, 120⟩ : LinkRec).employer_id =
        (⟨"John", "Smith", 7, 1998, 130⟩ : LinkRec).employer_id ∧
      LinkPersons.name_clean ⟨"John", "Smith", 7, 1996, 120⟩ =
        LinkPersons.name_clean ⟨"John", "Smith", 7, 1998, 130⟩ := by
  have h : fast_link_persons
      [⟨"John", "Smith", 7, 1996, 120⟩, ⟨"John", "Smith", 7, 1998, 130⟩] =
      [(⟨"John", "Smith", 7, 1996, 120⟩, 1),
        (⟨"John", "Smith", 7, 1998, 130⟩, 1)] := by decide
  exact claim_C2 [⟨"John", "Smith", 7, 1996, 120⟩, ⟨"John", "Smith", 7, 1998, 130⟩]
    (⟨"John", "Smith", 7, 1996, 120⟩, 1) (⟨"John", "Smith", 7, 1998, 130⟩, 1)
    (by rw [h]; simp) (by rw [h]; simp) rfl

open LinkPersons in
/-- C3: after sorting by (name key, year, total\_comp), the output keeps
the sorted scan order, and every record's person (group) id equals the
number of chain starts — positions whose `should_link` is false,
including position 0 — at or before it in the global scan order. -/
theorem claim_C3 (df : List LinkRec) (i : Nat)
    (h : i < (fast_link_persons df).length) :
    (fast_link_persons df).map Prod.fst = isort lexLeB df ∧
    ((fast_link_persons df).get ⟨i, h⟩).2 =
      ((slVec (isort lexLeB df)).take (i + 1)).count false := by
  have hlen : (cumFalse 0 (slVec (isort lexLeB df))).length =
      (isort lexLeB df).length := by
    rw [length_cumFalse, length_slVec]
  constructor
  · unfold fast_link_persons
    exact List.map_fst_zip _ _ (le_of_eq hlen.symm)
  · have hi : i < (isort lexLeB df).length := by
      unfold fast_link_persons at h
      rw [List.length_zip, hlen, min_self] at h
      exact h
    have hic : i < (cumFalse 0 (slVec (isort lexLeB df))).length := by
      rw [hlen]; exact hi
    show (fast_link_persons df)[i].2 = _
    unfold fast_link_persons
    rw [List.getElem_zip]
    show (cumFalse 0 (slVec (isort lexLeB df)))[i] = _
    rw [getElem_cumFalse _ _ _ hic, Nat.zero_add]

open LinkPersons in
/-- Witness for C3 at a concrete three-record stream, position 2. -/
theorem claim_C3_witness :
    ((fast_link_persons [⟨"John", "Smith", 7, 1996, 120⟩,
        ⟨"Ann", "Lee", 9, 1997, 50⟩, ⟨"John", "Smith", 7, 1998, 130⟩]).map
      Prod.fst =
      isort lexLeB [⟨"John", "Smith", 7, 1996, 120⟩,
        ⟨"Ann", "Lee", 9, 1997, 50⟩, ⟨"John", "Smith", 7, 1998, 130⟩]) ∧
    ((fast_link_persons [⟨"John", "Smith", 7, 1996, 120⟩,
        ⟨"Ann", "Lee", 9, 1997, 50⟩, ⟨"John", "Smith", 7, 1998, 130⟩]).get
        ⟨2, by decide⟩).2 =
      ((slVec (isort lexLeB [⟨"John", "Smith", 7, 1996, 120⟩,
        ⟨"Ann", "Lee", 9, 1997, 50⟩, ⟨"John", "Smith", 7, 1998, 130⟩])).take
          3).count false :=
  claim_C3 [⟨"John", "Smith", 7, 1996, 120⟩, ⟨"Ann", "Lee", 9, 1997, 50⟩,
    ⟨"John", "Smith", 7, 1998, 130⟩] 2 (by decide)

/-! ## Claim C9: malformed-currency handling in `ingest.py` -/

namespace Ingest

theorem process_file_ok (y : Int) : ∀ rows : List RawRow,
    (∀ r ∈ rows, isOkB (clean_currency r.salary) = true ∧
      isOkB (clean_currency r.benefits) = true) →
    process_file y rows = .ok (rows.map (fun r =>
      stgOf y r ((clean_currency r.salary).toOption.getD 0)
        ((clean_currency r.benefits).toOption.getD 0))) := by
  intro rows
  induction rows with
  | nil => intro _; rfl
  | cons r rows ih =>
      intro h
      have hr := h r (List.mem_cons_self _ _)
      cases hs : clean_currency r.salary with
      | error e => rw [hs] at hr; simp [isOkB] at hr
      | ok s =>
          cases hb : clean_currency r.benefits with
          | error e => rw [hb] at hr; simp [isOkB] at hr
          | ok b =>
              have ht := ih (fun x hx => h x (List.mem_cons_of_mem r hx))
              simp only [process_file] at ht ⊢
              rw [List.mapM_cons, hs, hb, ht]
              simp only [List.map_cons, hs, hb, Except.toOption, Option.getD_some]
              rfl

theorem process_file_error (y : Int) : ∀ rows : List RawRow,
    (∃ r ∈ rows, isOkB (clean_currency r.salary) = false ∨
      isOkB (clean_currency r.benefits) = false) →
    ∃ e, process_file y rows = .error e := by
  intro rows
  induction rows with
  | nil => rintro ⟨r, hr, _⟩; simp at hr
  | cons r rows ih =>
      rintro ⟨x, hx, hbad⟩
      cases hs : clean_currency r.salary with
      | error e =>
          refine ⟨e, ?_⟩
          simp only [process_file]
          rw [List.mapM_cons, hs]
          rfl
      | ok s =>
          cases hb : clean_currency r.benefits with
          | error e =>
              refine ⟨e, ?_⟩
              simp only [process_file]
              rw [List.mapM_cons, hs, hb]
              rfl
          | ok b =>
              rcases List.mem_cons.mp hx with rfl | hx
              · rw [hs, hb] at hbad
                simp [isOkB] at hbad
              · rcases ih ⟨x, hx, hbad⟩ with ⟨e, he⟩
                refine ⟨e, ?_⟩
                simp only [process_file] at he ⊢
                rw [List.mapM_cons, hs, hb, he]
                rfl

theorem ingest_foldl (files : List (Int × List RawRow)) :
    ∀ acc : List StgRow,
      files.foldl
        (fun acc f =>
          match process_file f.1 f.2 with
          | .ok rows => acc ++ rows
          | .error _ => acc) acc = acc ++ files.flatMap fileRows := by
  induction files with
  | nil => intro acc; simp
  | cons f fs ih =>
      intro acc
      rw [List.foldl_cons, List.flatMap_cons, ih]
      cases h : process_file f.1 f.2 <;>
        simp [fileRows, h, List.append_assoc]

end Ingest

open Ingest in
/-- C9 counterexample: the value `"N/A"` cannot be parsed, and instead of
defaulting to zero and keeping the record, processing raises and the
whole containing file — including its well-formed sibling record — is
dropped from the run's output. -/
theorem claim_C9_counterexample :
    clean_currency (.str "N/A") = .error "could not convert string to float" ∧
    ingest [(1996,
      [⟨"S", "Doe", "Jo", "Emp", "Job", .str "$1,234.50", .str "-"⟩,
        ⟨"S", "Roe", "Al", "Emp", "Job", .str "N/A", .str "0"⟩])] = [] := by
  constructor
  · rfl
  · rfl

open Ingest in
/-- C9 amended: a currency string whose cleaned form is `"-"` or empty
defaults to `0.0` and such records are retained; but any other
unparseable currency value raises `ValueError`, which drops the entire
containing file from the run (sibling files are unaffected).  A file all
of whose currency cells parse is retained in full. -/
theorem claim_C9 (y : Int) (rows : List Ingest.RawRow)
    (files : List (Int × List Ingest.RawRow)) :
    ((∀ r ∈ rows, isOkB (clean_currency r.salary) = true ∧
        isOkB (clean_currency r.benefits) = true) →
      process_file y rows = .ok (rows.map (fun r =>
        stgOf y r ((clean_currency r.salary).toOption.getD 0)
          ((clean_currency r.benefits).toOption.getD 0)))) ∧
    ((∃ r ∈ rows, isOkB (clean_currency r.salary) = false ∨
        isOkB (clean_currency r.benefits) = false) →
      ∃ e, process_file y rows = .error e) ∧
    ingest files = files.flatMap fileRows ∧
    clean_currency (.str " - ") = .ok 0 ∧
    clean_currency (.str "") = .ok 0 := by
  refine ⟨process_file_ok y rows, process_file_error y rows, ?_, rfl, rfl⟩
  simpa using ingest_foldl files []

open Ingest in
/-- Witness for C9 at concrete files: a clean file is kept in full, a
file with an `"N/A"` salary raises. -/
theorem claim_C9_witness :
    (process_file 1996 [⟨"S", "Doe", "Jo", "Emp", "Job", .str "$1,234.50", .str "-"⟩] =
      .ok ([⟨"S", "Doe", "Jo", "Emp", "Job", .str "$1,234.50", .str "-"⟩].map
        (fun r => stgOf 1996 r ((clean_currency r.salary).toOption.getD 0)
          ((clean_currency r.benefits).toOption.getD 0)))) ∧
    (∃ e, process_file 1997 [⟨"S", "Roe", "Al", "Emp", "Job", .str "N/A", .str "0"⟩] =
      .error e) ∧
    ingest [(1996, [⟨"S", "Doe", "Jo", "Emp", "Job", .str "$1,234.50", .str "-"⟩])] =
      [(1996, [⟨"S", "Doe", "Jo", "Emp", "Job", .str "$1,234.50", .str "-"⟩])].flatMap
        fileRows := by
  refine ⟨?_, ?_, ?_⟩
  · exact (claim_C9 1996 [⟨"S", "Doe", "Jo", "Emp", "Job", .str "$1,234.50", .str "-"⟩]
      []).1 (by decide)
  · exact (claim_C9 1997 [⟨"S", "Roe", "Al", "Emp", "Job", .str "N/A", .str "0"⟩]
      []).2.1 (by decide)
  · exact (claim_C9 1996 []
      [(1996, [⟨"S", "Doe", "Jo", "Emp", "Job", .str "$1,234.50", .str "-"⟩])]).2.2.1

/-! ## Lemmas about the whitespace-collapsing machinery -/

theorem rtrim_cons (c : Char) (x : List Char) :
    rtrim (c :: x) = if c = ' ' ∧ rtrim x = [] then [] else c :: rtrim x := rfl

theorem rtrim_eq_nil_iff {x : List Char} :
    rtrim x = [] ↔ ∀ c ∈ x, c = ' ' := by
  induction x with
  | nil => simp [rtrim]
  | cons c x ih =>
      rw [rtrim_cons]
      by_cases h : c = ' ' ∧ rtrim x = []
      · rw [if_pos h]
        constructor
        · intro _ d hd
          rcases List.mem_cons.mp hd with rfl | hd
          · exact h.1
          · exact ih.mp h.2 d hd
        · intro _; rfl
      · rw [if_neg h]
        simp only [List.mem_cons, forall_eq_or_imp]
        constructor
        · intro hc; exact absurd hc (List.cons_ne_nil _ _)
        · rintro ⟨rfl, hall⟩
          exact absurd ⟨rfl, ih.mpr hall⟩ h

theorem rtrim_append (a b : List Char) :
    rtrim (a ++ b) = if rtrim b = [] then rtrim a else a ++ rtrim b := by
  induction a with
  | nil =>
      by_cases h : rtrim b = []
      · rw [List.nil_append, if_pos h, h]; rfl
      · rw [List.nil_append, if_neg h, List.nil_append]
  | cons c a ih =>
      by_cases h : rtrim b = []
      · rw [if_pos h] at ih ⊢
        rw [List.cons_append, rtrim_cons, ih, rtrim_cons]
      · rw [if_neg h] at ih ⊢
        rw [List.cons_append, rtrim_cons, ih]
        have hne : ¬ (c = ' ' ∧ a ++ rtrim b = []) := by
          rintro ⟨-, habs⟩
          rcases List.append_eq_nil.mp habs with ⟨-, h2⟩
          exact h h2
        rw [if_neg hne, List.cons_append]

theorem rtrim_of_all_ne {w : List Char} (h : ∀ c ∈ w, ¬ c = ' ') :
    rtrim w = w := by
  induction w with
  | nil => rfl
  | cons c w ih =>
      rw [rtrim_cons, if_neg, ih (fun d hd => h d (List.mem_cons_of_mem c hd))]
      rintro ⟨hc, -⟩
      exact h c (List.mem_cons_self _ _) hc

theorem rtrim_rtrim (x : List Char) : rtrim (rtrim x) = rtrim x := by
  induction x with
  | nil => rfl
  | cons c x ih =>
      rw [rtrim_cons]
      by_cases h : c = ' ' ∧ rtrim x = []
      · rw [if_pos h]; rfl
      · rw [if_neg h, rtrim_cons, ih, if_neg h]

theorem mem_rtrim {c : Char} {x : List Char} (hc : c ∈ x) (hne : ¬ c = ' ') :
    c ∈ rtrim x := by
  induction x with
  | nil => simp at hc
  | cons d x ih =>
      rw [rtrim_cons]
      rcases List.mem_cons.mp hc with rfl | hc
      · rw [if_neg (fun hd => hne hd.1)]
        exact List.mem_cons_self _ _
      · have hmem := ih hc
        have hrne : rtrim x ≠ [] := fun h0 => by simp [h0] at hmem
        rw [if_neg (fun hd => hrne hd.2)]
        exact List.mem_cons_of_mem d hmem

theorem rtrim_front (x : List Char) : rtrim x <+: x := by
  induction x with
  | nil => exact List.prefix_refl []
  | cons c x ih =>
      rw [rtrim_cons]
      by_cases h : c = ' ' ∧ rtrim x = []
      · rw [if_pos h]; exact List.nil_prefix
      · rw [if_neg h]
        rcases ih with ⟨t, ht⟩
        exact ⟨t, by rw [List.cons_append, ht]⟩

theorem ltrim_cons_space (x : List Char) : ltrim (' ' :: x) = ltrim x := by
  simp [ltrim, List.dropWhile_cons]

theorem ltrim_of_head {x : List Char} (h : x.head? ≠ some ' ') :
    ltrim x = x := by
  cases x with
  | nil => rfl
  | cons c x =>
      have : ¬ c = ' ' := fun hc => h (by rw [hc]; rfl)
      simp [ltrim, List.dropWhile_cons, this]

theorem ltrim_append_of_head {w x : List Char} (h : w.head? ≠ some ' ') (hw : w ≠ []) :
    ltrim (w ++ x) = w ++ x := by
  cases w with
  | nil => exact absurd rfl hw
  | cons c w =>
      have : ¬ c = ' ' := fun hc => h (by rw [hc]; rfl)
      simp [ltrim, List.dropWhile_cons, this]

theorem mem_ltrim {c : Char} {x : List Char} (hc : c ∈ x) (hne : ¬ c = ' ') :
    c ∈ ltrim x := by
  induction x with
  | nil => simp at hc
  | cons d x ih =>
      rcases List.mem_cons.mp hc with rfl | hc
      · rw [ltrim_of_head ?_]
        · exact List.mem_cons_self _ _
        · intro h0
          exact hne (by simpa using h0)
      · by_cases hd : d = ' '
        · rw [hd, ltrim_cons_space]; exact ih hc
        · rw [ltrim_of_head (by simp [hd])]
          exact List.mem_cons_of_mem d hc

theorem ltrim_ltrim (x : List Char) : ltrim (ltrim x) = ltrim x := by
  cases h : ltrim x with
  | nil => rfl
  | cons c t =>
      refine ltrim_of_head ?_
      intro hc
      have hcsp : c = ' ' := by simpa using hc
      have := List.head?_dropWhile_not (fun d => decide (d = ' ')) x
      rw [show x.dropWhile (fun d => decide (d = ' ')) = ltrim x from rfl, h] at this
      simp [hcsp] at this

theorem ltrim_rtrim_comm (x : List Char) : ltrim (rtrim x) = rtrim (ltrim x) := by
  induction x with
  | nil => rfl
  | cons c x ih =>
      by_cases hc : c = ' '
      · subst hc
        rw [ltrim_cons_space, rtrim_cons]
        by_cases h : rtrim x = []
        · rw [if_pos ⟨rfl, h⟩]
          have h2 := ih
          rw [h] at h2
          exact h2
        · rw [if_neg (fun hp => h hp.2), ltrim_cons_space]
          exact ih
      · rw [rtrim_cons, if_neg (fun hp => hc hp.1),
          ltrim_of_head (by simp [hc]), ltrim_of_head (by simp [hc]),
          rtrim_cons, if_neg (fun hp => hc hp.1)]

theorem squeeze_cons (c : Char) (cs : List Char) :
    squeeze (c :: cs) =
      if c.isWhitespace then
        if (squeeze cs).head? = some ' ' then squeeze cs else ' ' :: squeeze cs
      else c :: squeeze cs := rfl

theorem squeeze_head_no_double : ∀ {x : List Char} {t : List Char},
    squeeze x = ' ' :: t → t.head? ≠ some ' ' := by
  intro x
  induction x with
  | nil => intro t h; simp [squeeze] at h
  | cons c cs ih =>
      intro t h
      rw [squeeze_cons] at h
      by_cases hc : c.isWhitespace
      · rw [if_pos hc] at h
        by_cases hh : (squeeze cs).head? = some ' '
        · rw [if_pos hh] at h
          exact ih h
        · rw [if_neg hh] at h
          have : t = squeeze cs := (List.cons_eq_cons.mp h).2.symm
          rw [this]
          exact hh
      · rw [if_neg hc] at h
        rcases List.cons_eq_cons.mp h with ⟨rfl, -⟩
        exact absurd (by decide : (' ').isWhitespace = true) hc

theorem squeeze_cons_space {d : Char} (hd : d.isWhitespace = true) (x : List Char) :
    squeeze (d :: x) = ' ' :: ltrim (squeeze x) := by
  rw [squeeze_cons, if_pos hd]
  by_cases hh : (squeeze x).head? = some ' '
  · rw [if_pos hh]
    cases hs : squeeze x with
    | nil => rw [hs] at hh; simp at hh
    | cons e t =>
        have he : e = ' ' := by rw [hs] at hh; simpa using hh
        subst he
        rw [ltrim_cons_space, ltrim_of_head (squeeze_head_no_double hs)]
  · rw [if_neg hh, ltrim_of_head hh]

theorem squeeze_word_head : ∀ {w : List Char} (x : List Char),
    (∀ c ∈ w, c.isWhitespace = false) → squeeze (w ++ x) = w ++ squeeze x := by
  intro w
  induction w with
  | nil => intro x _; rfl
  | cons c w ih =>
      intro x h
      have hc : c.isWhitespace = false := h c (List.mem_cons_self _ _)
      rw [List.cons_append, squeeze_cons, if_neg (by simp [hc]),
        ih x (fun d hd => h d (List.mem_cons_of_mem c hd)), List.cons_append]

theorem mem_squeeze_of {c : Char} : ∀ {x : List Char},
    c ∈ x → c.isWhitespace = false → c ∈ squeeze x := by
  intro x
  induction x with
  | nil => intro h _; simp at h
  | cons d cs ih =>
      intro h hc
      rw [squeeze_cons]
      rcases List.mem_cons.mp h with rfl | h
      · rw [if_neg (by simp [hc])]
        exact List.mem_cons_self _ _
      · by_cases hd : d.isWhitespace
        · rw [if_pos hd]
          by_cases hh : (squeeze cs).head? = some ' '
          · rw [if_pos hh]; exact ih h hc
          · rw [if_neg hh]; exact List.mem_cons_of_mem _ (ih h hc)
        · rw [if_neg hd]; exact List.mem_cons_of_mem _ (ih h hc)

theorem mem_squeeze {c : Char} : ∀ {x : List Char}, c ∈ squeeze x →
    (c ∈ x ∧ c.isWhitespace = false) ∨ c = ' ' := by
  intro x
  induction x with
  | nil => intro h; simp [squeeze] at h
  | cons d cs ih =>
      intro h
      rw [squeeze_cons] at h
      by_cases hd : d.isWhitespace
      · rw [if_pos hd] at h
        by_cases hh : (squeeze cs).head? = some ' '
        · rw [if_pos hh] at h
          rcases ih h with ⟨h1, h2⟩ | h1
          · exact Or.inl ⟨List.mem_cons_of_mem d h1, h2⟩
          · exact Or.inr h1
        · rw [if_neg hh] at h
          rcases List.mem_cons.mp h with rfl | h
          · exact Or.inr rfl
          · rcases ih h with ⟨h1, h2⟩ | h1
            · exact Or.inl ⟨List.mem_cons_of_mem d h1, h2⟩
            · exact Or.inr h1
      · rw [if_neg hd] at h
        rcases List.mem_cons.mp h with rfl | h
        · exact Or.inl ⟨List.mem_cons_self _ _, by simpa using hd⟩
        · rcases ih h with ⟨h1, h2⟩ | h1
          · exact Or.inl ⟨List.mem_cons_of_mem d h1, h2⟩
          · exact Or.inr h1

theorem wordsAux_word_head : ∀ (w : List Char) (cs acc : List Char),
    (∀ c ∈ w, c.isWhitespace = false) →
    wordsAux (w ++ cs) acc = wordsAux cs (w.reverse ++ acc) := by
  intro w
  induction w with
  | nil => intro cs acc _; rfl
  | cons c w ih =>
      intro cs acc h
      have hc : c.isWhitespace = false := h c (List.mem_cons_self _ _)
      rw [List.cons_append, wordsAux, if_neg (by simp [hc]),
        ih cs (c :: acc) (fun d hd => h d (List.mem_cons_of_mem c hd))]
      simp

theorem pyWords_eq_nil_iff : ∀ {l : List Char},
    pyWords l = [] ↔ ∀ c ∈ l, c.isWhitespace = true := by
  intro l
  induction l with
  | nil => simp [pyWords, wordsAux]
  | cons c cs ih =>
      constructor
      · intro h
        rw [pyWords, wordsAux] at h
        by_cases hc : c.isWhitespace
        · rw [if_pos hc] at h
          simp only [List.isEmpty_nil, if_pos rfl] at h
          intro d hd
          rcases List.mem_cons.mp hd with rfl | hd
          · exact hc
          · exact ih.mp h d hd
        · rw [if_neg hc] at h
          exfalso
          -- a scan whose accumulator is nonempty always emits a word
          have key : ∀ (l acc : List Char), acc ≠ [] → wordsAux l acc ≠ [] := by
            intro l
            induction l with
            | nil =>
                intro acc hacc
                rw [wordsAux, if_neg (by simpa using hacc)]
                exact List.cons_ne_nil _ _
            | cons e es ihe =>
                intro acc hacc
                rw [wordsAux]
                by_cases he : e.isWhitespace
                · rw [if_pos he, if_neg (by simpa using hacc)]
                  exact List.cons_ne_nil _ _
                · rw [if_neg he]
                  exact ihe (e :: acc) (List.cons_ne_nil _ _)
          exact key cs [c] (List.cons_ne_nil _ _) h
      · intro h
        rw [pyWords, wordsAux, if_pos (h c (List.mem_cons_self _ _))]
        simp only [List.isEmpty_nil, if_pos rfl]
        exact ih.mpr (fun d hd => h d (List.mem_cons_of_mem c hd))

theorem trimSq_cons_space {c : Char} (hc : c.isWhitespace = true) (cs : List Char) :
    trimSq (c :: cs) = trimSq cs := by
  unfold trimSq
  rw [squeeze_cons_space hc, rtrim_cons]
  by_cases h : rtrim (ltrim (squeeze cs)) = []
  · rw [if_pos ⟨rfl, h⟩, ltrim_rtrim_comm, h]
    rfl
  · rw [if_neg (fun hp => h hp.2), ltrim_cons_space, ltrim_rtrim_comm,
      ltrim_rtrim_comm, ltrim_ltrim]

theorem trimSq_eq_nil_iff : ∀ {l : List Char},
    trimSq l = [] ↔ ∀ c ∈ l, c.isWhitespace = true := by
  intro l
  constructor
  · intro h c hc
    by_contra hns
    have h1 : c ∈ squeeze l := mem_squeeze_of hc (by simpa using hns)
    have hne : ¬ c = ' ' := by
      rintro rfl
      exact hns rfl
    have h2 : c ∈ rtrim (squeeze l) := mem_rtrim h1 hne
    have h3 : c ∈ trimSq l := mem_ltrim h2 hne
    rw [h] at h3
    simp at h3
  · intro h
    unfold trimSq
    have hsq : ∀ c ∈ squeeze l, c = ' ' := by
      intro c hc
      rcases mem_squeeze hc with ⟨h1, h2⟩ | h1
      · exact absurd (h _ h1) (by simp [h2])
      · exact h1
    rw [rtrim_eq_nil_iff.mpr hsq]
    rfl

theorem joinW_cons (w : List Char) {ws : List (List Char)} (h : ws ≠ []) :
    joinW (w :: ws) = w ++ ' ' :: joinW ws := by
  cases ws with
  | nil => exact absurd rfl h
  | cons v vs => rfl

/-- The word-scan equivalence at the end of the input. -/
theorem wordsAux_nil_case (w : List Char) (hw : w ≠ [])
    (hns : ∀ d ∈ w, d.isWhitespace = false) :
    joinW (wordsAux [] w.reverse) = ltrim (rtrim (w ++ squeeze [])) := by
  have hwr : w.reverse.isEmpty = false := by
    cases w with
    | nil => exact absurd rfl hw
    | cons e w' => simp
  rw [wordsAux, hwr]
  simp only [Bool.false_eq_true, if_false, List.reverse_reverse]
  have h1 : rtrim w = w :=
    rtrim_of_all_ne (fun d hd hsp => by
      have := hns d hd
      rw [hsp] at this
      simp at this)
  have h2 : ltrim w = w := by
    cases w with
    | nil => rfl
    | cons e w' =>
        refine ltrim_of_head ?_
        intro h0
        have he : e = ' ' := by simpa using h0
        have := hns e (List.mem_cons_self _ _)
        rw [he] at this
        simp at this
  show joinW [w] = ltrim (rtrim (w ++ squeeze []))
  rw [show squeeze [] = ([] : List Char) from rfl, List.append_nil, h1, h2]
  rfl

/-- Joint induction engine for the `" ".join(s.split())`/`trimSq`
equivalence: the first component is the equivalence itself, the second
handles a scan that sits inside a word `w`. -/
theorem joinW_trimSq_aux : ∀ n : Nat,
    (∀ l : List Char, l.length ≤ n → joinW (pyWords l) = trimSq l) ∧
    (∀ rest : List Char, rest.length ≤ n → ∀ w : List Char, w ≠ [] →
      (∀ d ∈ w, d.isWhitespace = false) →
      joinW (wordsAux rest w.reverse) = ltrim (rtrim (w ++ squeeze rest))) := by
  intro n
  induction n with
  | zero =>
      constructor
      · intro l hl
        rw [List.length_eq_zero.mp (Nat.le_zero.mp hl)]
        rfl
      · intro rest hr w hw hns
        rw [List.length_eq_zero.mp (Nat.le_zero.mp hr)]
        exact wordsAux_nil_case w hw hns
  | succ n ih =>
      constructor
      · intro l hl
        cases l with
        | nil => rfl
        | cons c cs =>
            by_cases hc : c.isWhitespace
            · have hL : pyWords (c :: cs) = pyWords cs := by
                rw [pyWords, wordsAux, if_pos hc]
                simp only [List.isEmpty_nil, if_true]
                rfl
              rw [hL, trimSq_cons_space hc]
              exact ih.1 cs (Nat.le_of_succ_le_succ (by simpa using hl))
            · have hL : pyWords (c :: cs) = wordsAux cs [c].reverse := by
                rw [pyWords, wordsAux, if_neg hc]
                rfl
              rw [hL, ih.2 cs (Nat.le_of_succ_le_succ (by simpa using hl)) [c]
                (List.cons_ne_nil c []) (by simpa using hc)]
              unfold trimSq
              rw [squeeze_cons, if_neg hc]
              rfl
      · intro rest hr w hw hns
        cases rest with
        | nil => exact wordsAux_nil_case w hw hns
        | cons d rest' =>
            have hwr : w.reverse.isEmpty = false := by
              cases w with
              | nil => exact absurd rfl hw
              | cons e w' => simp
            have hhead : w.head? ≠ some ' ' := by
              cases w with
              | nil => exact absurd rfl hw
              | cons e w' =>
                  intro h0
                  have he : e = ' ' := by simpa using h0
                  have := hns e (List.mem_cons_self _ _)
                  rw [he] at this
                  simp at this
            by_cases hd : d.isWhitespace
            · have hL : wordsAux (d :: rest') w.reverse =
                  w :: pyWords rest' := by
                rw [wordsAux, if_pos hd, hwr]
                simp only [Bool.false_eq_true, if_false, List.reverse_reverse]
                rfl
              have hmain := ih.1 rest' (Nat.le_of_succ_le_succ (by simpa using hr))
              have hz : rtrim (ltrim (squeeze rest')) = trimSq rest' :=
                (ltrim_rtrim_comm (squeeze rest')).symm
              rw [hL, squeeze_cons_space hd]
              by_cases h0 : trimSq rest' = []
              · have hzn : rtrim (ltrim (squeeze rest')) = [] := by rw [hz, h0]
                have hpw : pyWords rest' = [] :=
                  pyWords_eq_nil_iff.mpr (trimSq_eq_nil_iff.mp h0)
                have hin : rtrim (' ' :: ltrim (squeeze rest')) = [] := by
                  rw [rtrim_cons, if_pos ⟨rfl, hzn⟩]
                rw [hpw, rtrim_append, hin, if_pos rfl]
                show joinW [w] = ltrim (rtrim w)
                have h1 : rtrim w = w :=
                  rtrim_of_all_ne (fun e he hsp => by
                    have := hns e he
                    rw [hsp] at this
                    simp at this)
                rw [h1, ltrim_of_head hhead]
                rfl
              · have hzn : ¬ rtrim (ltrim (squeeze rest')) = [] := by
                  rw [hz]; exact h0
                have hpw : pyWords rest' ≠ [] := fun hn =>
                  h0 (trimSq_eq_nil_iff.mpr (pyWords_eq_nil_iff.mp hn))
                have hin : rtrim (' ' :: ltrim (squeeze rest')) =
                    ' ' :: rtrim (ltrim (squeeze rest')) := by
                  rw [rtrim_cons, if_neg (fun hp => hzn hp.2)]
                rw [rtrim_append, hin, if_neg (List.cons_ne_nil _ _),
                  joinW_cons w hpw, hmain, hz,
                  ltrim_append_of_head hhead hw]
            · have hL : wordsAux (d :: rest') w.reverse =
                  wordsAux rest' (w ++ [d]).reverse := by
                rw [wordsAux, if_neg hd]
                congr 1
                rw [List.reverse_append]
                rfl
              have hns' : ∀ e ∈ w ++ [d], e.isWhitespace = false := by
                intro e he
                rcases List.mem_append.mp he with he | he
                · exact hns e he
                · rw [List.mem_singleton.mp he]
                  simpa using hd
              rw [hL, ih.2 rest' (Nat.le_of_succ_le_succ (by simpa using hr))
                (w ++ [d]) (by simp) hns']
              rw [squeeze_cons, if_neg hd, List.append_assoc]
              rfl

/-- `" ".join(s.split())` equals "collapse whitespace runs to single
spaces and trim". -/
theorem joinW_pyWords_eq_trimSq (l : List Char) :
    joinW (pyWords l) = trimSq l :=
  (joinW_trimSq_aux l.length).1 l (Nat.le_refl _)

theorem chain'_squeeze : ∀ x : List Char,
    (squeeze x).Chain' (fun a b => ¬ (a = ' ' ∧ b = ' ')) := by
  intro x
  induction x with
  | nil => exact List.chain'_nil
  | cons c cs ih =>
      rw [squeeze_cons]
      by_cases hc : c.isWhitespace
      · rw [if_pos hc]
        by_cases hh : (squeeze cs).head? = some ' '
        · rw [if_pos hh]; exact ih
        · rw [if_neg hh]
          refine List.chain'_cons'.mpr ⟨?_, ih⟩
          intro b hb hab
          exact hh (by rw [hb, hab.2])
      · rw [if_neg hc]
        refine List.chain'_cons'.mpr ⟨?_, ih⟩
        intro b _ hab
        rw [hab.1] at hc
        exact hc (by decide)

theorem squeeze_eq_self_of_chain' : ∀ z : List Char,
    z.Chain' (fun a b => ¬ (a = ' ' ∧ b = ' ')) →
    (∀ c ∈ z, c.isWhitespace = true → c = ' ') → squeeze z = z := by
  intro z
  induction z with
  | nil => intro _ _; rfl
  | cons c cs ih =>
      intro hch hsp
      rcases List.chain'_cons'.mp hch with ⟨hR, hch'⟩
      have ihcs := ih hch' (fun d hd => hsp d (List.mem_cons_of_mem c hd))
      by_cases hc : c.isWhitespace
      · have hc' : c = ' ' := hsp c (List.mem_cons_self _ _) hc
        subst hc'
        rw [squeeze_cons_space (by decide), ihcs]
        congr 1
        cases cs with
        | nil => rfl
        | cons e cs' =>
            refine ltrim_of_head ?_
            intro h0
            have he : e = ' ' := by simpa using h0
            exact hR e rfl ⟨rfl, he⟩
      · rw [squeeze_cons, if_neg hc, ihcs]

theorem trimSq_idem (x : List Char) : trimSq (trimSq x) = trimSq x := by
  have hsub1 : rtrim (squeeze x) <+: squeeze x := rtrim_front _
  have hsub2 : trimSq x <:+ rtrim (squeeze x) := List.dropWhile_suffix _
  have hch1 := List.Chain'.prefix (chain'_squeeze x) hsub1
  have hch : (trimSq x).Chain' (fun a b => ¬ (a = ' ' ∧ b = ' ')) :=
    hch1.suffix hsub2
  have hmem : ∀ c ∈ trimSq x, c ∈ squeeze x := fun c hc =>
    hsub1.subset (hsub2.subset hc)
  have hsp : ∀ c ∈ trimSq x, c.isWhitespace = true → c = ' ' := by
    intro c hc hcw
    rcases mem_squeeze (hmem c hc) with ⟨-, h2⟩ | h1
    · rw [hcw] at h2; simp at h2
    · exact h1
  have hz : squeeze (trimSq x) = trimSq x := squeeze_eq_self_of_chain' _ hch hsp
  show ltrim (rtrim (squeeze (trimSq x))) = trimSq x
  rw [hz]
  show ltrim (rtrim (ltrim (rtrim (squeeze x)))) = trimSq x
  rw [show rtrim (ltrim (rtrim (squeeze x))) =
        ltrim (rtrim (rtrim (squeeze x))) from (ltrim_rtrim_comm _).symm,
    rtrim_rtrim, ltrim_ltrim]
  rfl

namespace NormEmp

/-- Every character the employer filter keeps is fixed by `toUpper`. -/
theorem keepE_toUpper_fix {c : Char} (h : keepE c = true) :
    Char.toUpper c = c := by
  have hlt : ¬ (97 ≤ c.toNat ∧ c.toNat ≤ 122) := by
    simp only [keepE, Bool.decide_or, Bool.or_eq_true, decide_eq_true_eq] at h
    rcases h with ⟨h1, h2⟩ | ⟨h1, h2⟩ | h1 | h1
    · simp only [Char.le_def, UInt32.le_def, BitVec.le_def] at h1 h2
      intro hc
      exact absurd (le_trans hc.1 h2) (by decide)
    · simp only [Char.le_def, UInt32.le_def, BitVec.le_def] at h1 h2
      intro hc
      exact absurd (le_trans hc.1 h2) (by decide)
    · simp only [Char.isWhitespace, Bool.or_eq_true, decide_eq_true_eq] at h1
      rcases h1 with ((rfl | rfl) | rfl) | rfl <;> decide
    · subst h1
      decide
  simp [Char.toUpper, hlt]

/-- All characters of the normalized output are kept and `toUpper`-fixed. -/
theorem mem_normChars {c : Char} {l : List Char} (hc : c ∈ normChars l) :
    keepE c = true ∧ Char.toUpper c = c := by
  have hc' : c ∈ trimSq ((l.map Char.toUpper).filter keepE) := by
    rw [← joinW_pyWords_eq_trimSq]
    exact hc
  have hmem : c ∈ squeeze ((l.map Char.toUpper).filter keepE) :=
    (rtrim_front _).subset ((List.dropWhile_suffix _).subset hc')
  rcases mem_squeeze hmem with ⟨h1, -⟩ | h1
  · have hk : keepE c = true := List.of_mem_filter h1
    exact ⟨hk, keepE_toUpper_fix hk⟩
  · subst h1
    exact ⟨by decide, by decide⟩

end NormEmp

/-! ## Claims C4–C5: the string canonicalizer -/

open NormEmp in
/-- C4 counterexample: the code strips no legal-entity boilerplate token
(`"Acme Inc"` keeps `INC`) and keeps the dash (`"Co-Op"`), where the
claimed rules produce `"ACME"` and `"COOP"`. -/
theorem claim_C4_counterexample :
    NormEmp.normalize_string "Acme Inc" = "ACME INC" ∧
    normSpecC4 "Acme Inc" = "ACME" ∧
    NormEmp.normalize_string "Acme Inc" ≠ normSpecC4 "Acme Inc" ∧
    NormEmp.normalize_string "Co-Op" = "CO-OP" ∧
    normSpecC4 "Co-Op" = "COOP" := by
  refine ⟨rfl, rfl, ?_, rfl, rfl⟩
  decide

open NormEmp in
/-- C4 amended: for every input string, the employer normalizer
uppercases, drops every character outside uppercase letters, digits,
whitespace and the dash, collapses whitespace runs to single spaces and
trims — and performs no boilerplate-token stripping. -/
theorem claim_C4 (s : String) :
    NormEmp.normalize_string s = normAmended s :=
  congrArg String.mk (joinW_pyWords_eq_trimSq _)

open NormJobs in
/-- C5 counterexample: the job-title variant is not idempotent — on
`"ab ./ cd"` one pass gives `"AB / CD"`, whose second pass collapses the
freed-up `" / "` to `"AB/CD"`. -/
theorem claim_C5_counterexample :
    NormJobs.normalize_string "ab ./ cd" = "AB / CD" ∧
    NormJobs.normalize_string (NormJobs.normalize_string "ab ./ cd") = "AB/CD" ∧
    NormJobs.normalize_string (NormJobs.normalize_string "ab ./ cd") ≠
      NormJobs.normalize_string "ab ./ cd" := by
  refine ⟨rfl, rfl, ?_⟩
  decide

open NormEmp in
/-- C5 amended: the employer variant of the normalizer is idempotent on
every string (the job variant is not, see the counterexample). -/
theorem claim_C5 (s : String) :
    NormEmp.normalize_string (NormEmp.normalize_string s) =
      NormEmp.normalize_string s := by
  show (⟨normChars (normChars s.data)⟩ : String) = ⟨normChars s.data⟩
  have hfix : (normChars s.data).map Char.toUpper = normChars s.data := by
    refine List.map_congr_left ?_ |>.trans (List.map_id _)
    intro c hc
    exact (mem_normChars hc).2
  have hfilter : (normChars s.data).filter keepE = normChars s.data := by
    refine List.filter_eq_self.mpr ?_
    intro c hc
    exact (mem_normChars hc).1
  congr 1
  show joinW (pyWords (((normChars s.data).map Char.toUpper).filter keepE)) =
    normChars s.data
  rw [hfix, hfilter, joinW_pyWords_eq_trimSq]
  show trimSq (joinW (pyWords ((s.data.map Char.toUpper).filter keepE))) = _
  rw [joinW_pyWords_eq_trimSq, trimSq_idem]
  exact (joinW_pyWords_eq_trimSq _).symm

/-! ## Claims C6–C8, C10: the cohort aggregator -/

theorem find?_eq_head?_filter {α : Type} (p : α → Bool) :
    ∀ l : List α, l.find? p = (l.filter p).head? := by
  intro l
  induction l with
  | nil => rfl
  | cons a l ih =>
      by_cases h : p a = true
      · rw [List.find?_cons_of_pos _ h, List.filter_cons_of_pos h]
        rfl
      · rw [List.find?_cons_of_neg _ (by simpa using h),
          List.filter_cons_of_neg (by simpa using h), ih]

theorem find?_reverse {α : Type} (p : α → Bool) (l : List α) :
    l.reverse.find? p = (l.filter p).getLast? := by
  rw [find?_eq_head?_filter, List.filter_reverse, List.head?_reverse]

theorem getLast?_cons_of_ne_nil {α : Type} (a : α) {l : List α} (h : l ≠ []) :
    (a :: l).getLast? = l.getLast? := by
  cases l with
  | nil => exact absurd rfl h
  | cons b l => exact List.getLast?_cons_cons

namespace Analytics

theorem maxYearOf_cons (f : Fact) (g : Fact) (l : List Fact) :
    maxYearOf (f :: g :: l) = max f.year (maxYearOf (g :: l)) := rfl

theorem le_maxYearOf : ∀ {l : List Fact} {f : Fact}, f ∈ l →
    f.year ≤ maxYearOf l := by
  intro l
  induction l with
  | nil => intro f h; simp at h
  | cons g l ih =>
      intro f h
      cases l with
      | nil =>
          rw [List.mem_singleton.mp h]
          exact le_refl _
      | cons g' l' =>
          rw [maxYearOf_cons]
          rcases List.mem_cons.mp h with rfl | h
          · exact le_max_left _ _
          · exact le_trans (ih h) (le_max_right _ _)

theorem maxYearOf_attained : ∀ {l : List Fact}, l ≠ [] →
    ∃ f ∈ l, f.year = maxYearOf l := by
  intro l
  induction l with
  | nil => intro h; exact absurd rfl h
  | cons g l ih =>
      intro _
      cases l with
      | nil => exact ⟨g, List.mem_singleton_self g, rfl⟩
      | cons g' l' =>
          rw [maxYearOf_cons]
          rcases le_total g.year (maxYearOf (g' :: l')) with hle | hle
          · rcases ih (List.cons_ne_nil g' l') with ⟨f, hf, hfy⟩
            exact ⟨f, List.mem_cons_of_mem g hf, by rw [hfy, max_eq_right hle]⟩
          · exact ⟨g, List.mem_cons_self g _, (max_eq_left hle).symm⟩

theorem sorted_getLast?_filter_max {M : Int} : ∀ (t : List Fact),
    t.Pairwise (fun a b => a.year ≤ b.year) → (∀ x ∈ t, x.year ≤ M) →
    (∃ x ∈ t, x.year = M) →
    (t.filter (fun f => f.year = M)).getLast? = t.getLast? := by
  intro t
  induction t with
  | nil => rintro _ _ ⟨x, hx, -⟩; simp at hx
  | cons x t' ih =>
      intro hpair hbound hatt
      rcases List.pairwise_cons.mp hpair with ⟨hx, hpair'⟩
      cases t' with
      | nil =>
          rcases hatt with ⟨w, hw, hwy⟩
          rw [List.mem_singleton.mp hw] at hwy
          rw [List.filter_cons_of_pos (by simp [hwy])]
          rfl
      | cons z t'' =>
          have hatt' : ∃ w ∈ z :: t'', w.year = M := by
            rcases hatt with ⟨w, hw, hwy⟩
            rcases List.mem_cons.mp hw with rfl | hw
            · refine ⟨z, List.mem_cons_self z t'', le_antisymm
                (hbound z (List.mem_cons_of_mem w (List.mem_cons_self z t''))) ?_⟩
              rw [← hwy]
              exact hx z (List.mem_cons_self z t'')
            · exact ⟨w, hw, hwy⟩
          have ihv := ih hpair'
            (fun v hv => hbound v (List.mem_cons_of_mem x hv)) hatt'
          rw [List.getLast?_cons_cons]
          by_cases hxm : x.year = M
          · rw [List.filter_cons_of_pos (by simp [hxm])]
            rcases hatt' with ⟨w, hw, hwy⟩
            have hwmem : w ∈ (z :: t'').filter (fun f => f.year = M) :=
              List.mem_filter.mpr ⟨hw, by simp [hwy]⟩
            rw [getLast?_cons_of_ne_nil x (fun h0 => by
              rw [h0] at hwmem
              simp at hwmem)]
            exact ihv
          · rw [List.filter_cons_of_neg (by simp [hxm])]
            exact ihv

end Analytics

open Analytics in
/-- Characterization of the prior population **under this file's
stable-sort model only**: for every year `y` and key `(p, e)` the prior
population holds exactly one row for the key when prior candidates
exist (none otherwise), namely a candidate of the most recent year
strictly before `y`; in the model it is the duplicate occurring last in
input order.  That tie-break is a property of the model, not of the
program: `sort_values('year', ascending=False)` runs the default
unstable quicksort, which guarantees no particular order among rows of
equal year, so which exact duplicate survives is implementation-defined
(see the `priorPop` doc comment). -/
theorem priorPop_stable_model_spec (df : List Fact) (y : Int) (p : String) (e : Nat) :
    (priorPop df y).filter (fun q => pkey q = (p, e)) =
      ((priorCands df y p e).filter
        (fun f => f.year = maxYearOf (priorCands df y p e))).getLast?.toList := by
  have hstep1 : (priorPop df y).filter (fun q => pkey q = (p, e)) =
      (((isort (fun a b => decide (a.year ≤ b.year))
          (df.filter (fun f => f.year < y))).reverse).find?
        (fun q => pkey q = (p, e))).toList := by
    unfold priorPop
    exact filter_ddup_of_not_mem (by simp)
  rw [hstep1, find?_reverse]
  set yle : Fact → Fact → Bool := fun a b => decide (a.year ≤ b.year) with hyle
  set cands' := df.filter (fun f => f.year < y) with hcands'
  set M := maxYearOf (priorCands df y p e) with hM
  set t := (isort yle cands').filter (fun q => pkey q = (p, e)) with ht
  have hmemt : ∀ x, x ∈ t ↔ x ∈ priorCands df y p e := by
    intro x
    rw [ht, List.mem_filter, mem_isort, hcands', List.mem_filter,
      priorCands, List.mem_filter]
    simp only [decide_eq_true_eq, Bool.and_eq_true, and_assoc]
  by_cases hc : priorCands df y p e = []
  · have htnil : t = [] := by
      rw [List.eq_nil_iff_forall_not_mem]
      intro x hx
      have := (hmemt x).mp hx
      rw [hc] at this
      simp at this
    rw [htnil, hc]
    rfl
  · have hpair : t.Pairwise (fun a b => a.year ≤ b.year) := by
      have h1 : (isort yle cands').Pairwise (fun a b => yle a b = true) :=
        pairwise_isort
          (fun a b hab => by
            simp only [hyle, decide_eq_false_iff_not] at hab
            simp only [hyle, decide_eq_true_eq]
            omega)
          (fun a b c hab hbc => by
            simp only [hyle, decide_eq_true_eq] at hab hbc ⊢
            omega)
          cands'
      exact ((h1.sublist (List.filter_sublist _)).imp
        (fun hab => by simpa [hyle] using hab))
    have hbound : ∀ x ∈ t, x.year ≤ M := fun x hx =>
      hM ▸ le_maxYearOf ((hmemt x).mp hx)
    have hatt : ∃ x ∈ t, x.year = M := by
      rcases maxYearOf_attained hc with ⟨f, hf, hfy⟩
      exact ⟨f, (hmemt f).mpr hf, hM ▸ hfy⟩
    rw [← sorted_getLast?_filter_max t hpair hbound hatt]
    congr 1
    rw [ht, List.filter_filter]
    unfold priorCands
    rw [filter_isort (fun a b hpa hle => by
      have hya : a.year = M := by
        simp only [Bool.and_eq_true, decide_eq_true_eq] at hpa
        exact hpa.1
      have hlt : b.year < a.year := by
        simp only [hyle, decide_eq_false_iff_not] at hle
        omega
      have hbm : ¬ b.year = M := by omega
      simp [hbm]),
      hcands', List.filter_filter, List.filter_filter]
    refine congrArg List.getLast? (List.filter_congr ?_)
    intro f _
    by_cases h1 : f.year < y <;> by_cases h2 : pkey f = (p, e) <;>
      by_cases h3 : f.year = M <;> simp [h1, h2, h3]

namespace Analytics

theorem mem_priorPop {q : Fact} {df : List Fact} {y : Int}
    (h : q ∈ priorPop df y) : q ∈ df ∧ q.year < y := by
  unfold priorPop at h
  have h1 := mem_of_mem_ddup h
  rw [List.mem_reverse, mem_isort, List.mem_filter] at h1
  exact ⟨h1.1, by simpa using h1.2⟩

theorem mergedRows_snd {rc : Fact × Option Fact} {curr pp : List Fact}
    (h : rc ∈ mergedRows curr pp) :
    rc.2 = none ∨ ∃ q ∈ pp, rc.2 = some q := by
  unfold mergedRows at h
  rcases List.mem_flatMap.mp h with ⟨r, -, hmem⟩
  by_cases hms : (matchesFor pp r).isEmpty = true
  · rw [if_pos hms] at hmem
    rw [List.mem_singleton.mp hmem]
    exact Or.inl rfl
  · rw [if_neg hms] at hmem
    rcases List.mem_map.mp hmem with ⟨q, hq, rfl⟩
    exact Or.inr ⟨q, List.mem_filter.mp hq |>.1, rfl⟩

theorem growthOf_fin {rc : Fact × Option Fact} {q : Fact}
    (h : rc.2 = some q) (hq : q.total_comp ≠ 0) :
    (growthOf rc).isFin = true := by
  unfold growthOf
  rw [h]
  simp only [PFloat.sub, PFloat.div, if_neg hq]
  rfl

theorem growthOf_nan {rc : Fact × Option Fact} (h : rc.2 = none) :
    (growthOf rc).isNaN = true := by
  unfold growthOf
  rw [h]
  rfl

theorem pfloat_fin_exists {g : PFloat} (h : g.isFin = true) : ∃ a, g = .val a := by
  cases g with
  | val a => exact ⟨a, rfl⟩
  | nan => simp [PFloat.isFin] at h
  | ninf => simp [PFloat.isFin] at h
  | pinf => simp [PFloat.isFin] at h

theorem pfMedian_nan_or_fin {l : List PFloat}
    (h : ∀ g ∈ l, g.isNaN = true ∨ g.isFin = true) :
    (pfMedian l).isNaN = true ∨ (pfMedian l).isFin = true := by
  unfold pfMedian
  set v := l.filter (fun x => ¬ x.isNaN) with hv
  have hvf : ∀ g ∈ v, g.isFin = true := by
    intro g hg
    rcases List.mem_filter.mp hg with ⟨hgl, hgn⟩
    rcases h g hgl with hnan | hfin
    · rw [hnan] at hgn; simp at hgn
    · exact hfin
  set s := isort PFloat.leB v with hs
  have hsf : ∀ g ∈ s, g.isFin = true := fun g hg => hvf g (mem_isort.mp hg)
  by_cases h0 : s.length = 0
  · rw [if_pos h0]
    exact Or.inl rfl
  · rw [if_neg h0]
    by_cases hodd : s.length % 2 = 1
    · rw [if_pos hodd]
      refine Or.inr ?_
      have hlt : s.length / 2 < s.length := Nat.div_lt_self (Nat.pos_of_ne_zero h0) (by omega)
      rw [List.getD_eq_getElem s PFloat.nan hlt]
      exact hsf _ (List.getElem_mem hlt)
    · rw [if_neg hodd]
      refine Or.inr ?_
      have h2 : 2 ≤ s.length := by omega
      have hlt1 : s.length / 2 - 1 < s.length := by omega
      have hlt2 : s.length / 2 < s.length := by omega
      rw [List.getD_eq_getElem s PFloat.nan hlt1, List.getD_eq_getElem s PFloat.nan hlt2]
      rcases pfloat_fin_exists (hsf _ (List.getElem_mem hlt1)) with ⟨a, ha⟩
      rcases pfloat_fin_exists (hsf _ (List.getElem_mem hlt2)) with ⟨b, hb⟩
      rw [ha, hb]
      rfl

/-- Every output record of `generate_employer_metrics` is a first-year
record or a later-year record. -/
theorem mem_gem {df : List Fact} {r : EmpMetric}
    (hr : r ∈ generate_employer_metrics df) :
    ∃ y0 rest, uniqueYears df = y0 :: rest ∧
      ((∃ e, e ∈ empIds (currFacts df y0) ∧ r = metricFirst df y0 e) ∨
       (∃ y, y ∈ rest ∧ ∃ e, e ∈ empIds (currFacts df y) ∧
          r = metricLater df y
            (mergedRows (currFacts df y) (priorPop df y)) e)) := by
  unfold generate_employer_metrics at hr
  cases huy : uniqueYears df with
  | nil => rw [huy] at hr; simp at hr
  | cons y0 rest =>
      rw [huy] at hr
      refine ⟨y0, rest, rfl, ?_⟩
      rcases List.mem_append.mp hr with hl | hl
      · rcases List.mem_map.mp hl with ⟨e, he, rfl⟩
        exact Or.inl ⟨e, he, rfl⟩
      · rcases List.mem_flatMap.mp hl with ⟨y, hy, hmem⟩
        unfold metricsForYearLater at hmem
        rcases List.mem_map.mp hmem with ⟨e, he, rfl⟩
        exact Or.inr ⟨y, hy, e, he, rfl⟩

theorem matchesFor_priorPop_le_one (df : List Fact) (y : Int) (q : Fact) :
    (matchesFor (priorPop df y) q).length ≤ 1 := by
  unfold matchesFor priorPop
  rw [filter_ddup_of_not_mem (by simp)]
  cases List.find? (fun x => pkey x = pkey q)
    ((isort (fun a b => decide (a.year ≤ b.year))
      (df.filter (fun f => f.year < y))).reverse) with
  | none => simp
  | some x => simp

theorem stayed_le_headcount (e : Nat) : ∀ (curr : List Fact) (pp : List Fact),
    (∀ q, (matchesFor pp q).length ≤ 1) →
    List.countP (fun rc => rc.2.isSome)
        (List.filter (fun rc => rc.1.employer_id = e) (mergedRows curr pp)) ≤
      (curr.filter (fun f => f.employer_id = e)).length := by
  intro curr
  induction curr with
  | nil => intro pp _; simp [mergedRows]
  | cons q curr ih =>
      intro pp hle
      have hstep : mergedRows (q :: curr) pp =
          (if (matchesFor pp q).isEmpty then [(q, none)]
            else (matchesFor pp q).map (fun m => (q, some m))) ++
            mergedRows curr pp := by
        unfold mergedRows
        rw [List.flatMap_cons]
      rw [hstep, List.filter_append, List.countP_append]
      by_cases hqe : q.employer_id = e
      · rw [List.filter_cons_of_pos (by simp [hqe])]
        have hhead : List.countP (fun rc => rc.2.isSome)
            (List.filter (fun rc => rc.1.employer_id = e)
              (if (matchesFor pp q).isEmpty then [(q, none)]
                else (matchesFor pp q).map (fun m => (q, some m)))) ≤ 1 := by
          by_cases hms : (matchesFor pp q).isEmpty = true
          · rw [if_pos hms]
            rw [List.filter_cons_of_pos (by simp [hqe])]
            simp [List.countP_cons]
          · rw [if_neg hms]
            have h1 : List.filter (fun rc => rc.1.employer_id = e)
                ((matchesFor pp q).map (fun m => (q, some m))) =
                (matchesFor pp q).map (fun m => (q, some m)) :=
              List.filter_eq_self.mpr (fun rc hrc => by
                rcases List.mem_map.mp hrc with ⟨m, -, rfl⟩
                simp [hqe])
            rw [h1]
            have h2 := List.countP_le_length (l := (matchesFor pp q).map
              (fun m => (q, some m))) (p := fun rc => rc.2.isSome)
            rw [List.length_map] at h2
            exact le_trans h2 (hle q)
        have htail := ih pp hle
        rw [List.length_cons]
        omega
      · rw [List.filter_cons_of_neg (by simp [hqe])]
        have hhead : List.filter (fun rc => rc.1.employer_id = e)
            (if (matchesFor pp q).isEmpty then [(q, none)]
              else (matchesFor pp q).map (fun m => (q, some m))) = [] := by
          by_cases hms : (matchesFor pp q).isEmpty = true
          · rw [if_pos hms]
            simp [hqe]
          · rw [if_neg hms]
            refine List.filter_eq_nil_iff.mpr ?_
            intro rc hrc
            rcases List.mem_map.mp hrc with ⟨m, -, rfl⟩
            simp [hqe]
        rw [hhead]
        simpa using ih pp hle

end Analytics

namespace Analytics

theorem metricFirst_year (df : List Fact) (y : Int) (e : Nat) :
    (metricFirst df y e).year = y := rfl

theorem metricLater_year (df : List Fact) (y : Int)
    (merged : List (Fact × Option Fact)) (e : Nat) :
    (metricLater df y merged e).year = y := rfl

theorem metricLater_emp (df : List Fact) (y : Int)
    (merged : List (Fact × Option Fact)) (e : Nat) :
    (metricLater df y merged e).employer_id = e := rfl

theorem metricLater_headcount (df : List Fact) (y : Int)
    (merged : List (Fact × Option Fact)) (e : Nat) :
    (metricLater df y merged e).headcount =
      ((df.filter (fun f => f.employer_id = e ∧ f.year = y)).map
        (·.total_comp)).length := rfl

theorem metricLater_stayed (df : List Fact) (y : Int)
    (merged : List (Fact × Option Fact)) (e : Nat) :
    (metricLater df y merged e).stayed_count =
      List.countP (fun rc => rc.2.isSome)
        (merged.filter (fun rc => rc.1.employer_id = e)) := rfl

theorem metricLater_retention (df : List Fact) (y : Int)
    (merged : List (Fact × Option Fact)) (e : Nat) :
    (metricLater df y merged e).retention_rate =
      if 0 < (metricLater df y merged e).headcount then
        ((metricLater df y merged e).stayed_count : ℚ) /
          ((metricLater df y merged e).headcount : ℚ)
      else 0 := rfl

theorem metricLater_growth (df : List Fact) (y : Int)
    (merged : List (Fact × Option Fact)) (e : Nat) :
    (metricLater df y merged e).growth_median =
      if (pfMedian ((merged.filter (fun rc => rc.1.employer_id = e)).map
          growthOf)).isNaN then PFloat.val 0
      else pfMedian ((merged.filter (fun rc => rc.1.employer_id = e)).map
        growthOf) := rfl

end Analytics

open Analytics in
/-- C8 counterexample: with salary and benefits merely non-negative, a
prior `total_comp` of `0` makes the growth division produce `+inf`, and
the published `growth_median` is `+inf` — not a finite number and not
the `0.0` default. -/
theorem claim_C8_counterexample :
    ∃ r, r ∈ generate_employer_metrics
        [⟨1996, "1", 7, 0⟩, ⟨1997, "1", 7, 100⟩] ∧
      r.year = 1997 ∧ r.growth_median = PFloat.pinf ∧
      r.growth_median.isFin = false := by
  refine ⟨(generate_employer_metrics
      [⟨1996, "1", 7, 0⟩, ⟨1997, "1", 7, 100⟩]).get ⟨1, by decide⟩,
    List.get_mem _ _ _, by decide, by decide, by decide⟩

open Analytics in
/-- C8 amended: `growth_median` is the skip-`NaN` median of the per-pair
growth ratios, or the `0.0` default when that median is undefined; it is
finite provided every record's `total_comp` is positive (a zero prior
`total_comp` — allowed by mere non-negativity — yields an infinite
ratio instead). -/
theorem claim_C8 (df : List Fact) (hpos : ∀ f ∈ df, 0 < f.total_comp) :
    ∀ r ∈ generate_employer_metrics df, r.growth_median.isFin = true := by
  intro r hr
  rcases mem_gem hr with ⟨y0, rest, huy, ⟨e, he, rfl⟩ | ⟨y, hy, e, he, rfl⟩⟩
  · rfl
  · rw [metricLater_growth]
    have hel : ∀ g ∈ ((mergedRows (currFacts df y) (priorPop df y)).filter
        (fun rc => rc.1.employer_id = e)).map growthOf,
        g.isNaN = true ∨ g.isFin = true := by
      intro g hg
      rcases List.mem_map.mp hg with ⟨rc, hrc, rfl⟩
      have hrm : rc ∈ mergedRows (currFacts df y) (priorPop df y) :=
        (List.mem_filter.mp hrc).1
      rcases mergedRows_snd hrm with hnone | ⟨q, hq, hsome⟩
      · exact Or.inl (growthOf_nan hnone)
      · refine Or.inr (growthOf_fin hsome ?_)
        exact ne_of_gt (hpos q (mem_priorPop hq).1)
    rcases pfMedian_nan_or_fin hel with hnan | hfin
    · rw [if_pos hnan]
      rfl
    · by_cases hn : (pfMedian ((mergedRows (currFacts df y)
          (priorPop df y)).filter (fun rc => rc.1.employer_id = e) |>.map
            growthOf)).isNaN = true
      · rw [if_pos hn]
        rfl
      · rw [if_neg hn]
        exact hfin

open Analytics in
/-- Witness for C8 at a concrete all-positive fact table. -/
theorem claim_C8_witness :
    ((generate_employer_metrics
        [⟨1996, "1", 7, 100⟩, ⟨1997, "1", 7, 110⟩]).get
      ⟨1, by decide⟩).growth_median.isFin = true :=
  claim_C8 [⟨1996, "1", 7, 100⟩, ⟨1997, "1", 7, 110⟩] (by decide) _
    (List.get_mem _ _ _)

open Analytics in
/-- C10: in every employer-year record after the first dataset year,
`stayed_count` never exceeds the current-year headcount — the prior
population carries at most one row per `(person_id, employer_id)`, so
the left join marks each current record as stayed at most once — and
`retention_rate` lies in `[0, 1]`. -/
theorem claim_C10 (df : List Fact) (r : EmpMetric)
    (hr : r ∈ generate_employer_metrics df) (hy : r.year ≠ minYearD df) :
    r.stayed_count ≤ r.headcount ∧ 0 ≤ r.retention_rate ∧
      r.retention_rate ≤ 1 := by
  rcases mem_gem hr with ⟨y0, rest, huy, ⟨e, he, rfl⟩ | ⟨y, hy', e, he, rfl⟩⟩
  · exfalso
    apply hy
    rw [metricFirst_year]
    unfold minYearD
    rw [huy]
    rfl
  · have hkey : (metricLater df y
        (mergedRows (currFacts df y) (priorPop df y)) e).stayed_count ≤
        (metricLater df y
          (mergedRows (currFacts df y) (priorPop df y)) e).headcount := by
      rw [metricLater_stayed, metricLater_headcount, List.length_map]
      have h1 := stayed_le_headcount e (currFacts df y) (priorPop df y)
        (matchesFor_priorPop_le_one df y)
      have h2 : (currFacts df y).filter (fun f => f.employer_id = e) =
          df.filter (fun f => f.employer_id = e ∧ f.year = y) := by
        unfold currFacts
        rw [List.filter_filter]
        refine List.filter_congr ?_
        intro f _
        by_cases ha : f.year = y <;> by_cases hb : f.employer_id = e <;>
          simp [ha, hb]
      rw [h2] at h1
      exact h1
    refine ⟨hkey, ?_, ?_⟩
    · rw [metricLater_retention]
      by_cases hhc : 0 < (metricLater df y
          (mergedRows (currFacts df y) (priorPop df y)) e).headcount
      · rw [if_pos hhc]
        exact div_nonneg (Nat.cast_nonneg _) (Nat.cast_nonneg _)
      · rw [if_neg hhc]
    · rw [metricLater_retention]
      by_cases hhc : 0 < (metricLater df y
          (mergedRows (currFacts df y) (priorPop df y)) e).headcount
      · rw [if_pos hhc]
        rw [div_le_one (by exact_mod_cast hhc)]
        exact_mod_cast hkey
      · rw [if_neg hhc]
        exact zero_le_one

open Analytics in
/-- Witness for C10 at a concrete two-year fact table. -/
theorem claim_C10_witness :
    ((generate_employer_metrics [⟨1996, "1", 7, 100⟩, ⟨1997, "1", 7, 110⟩,
        ⟨1997, "2", 7, 50⟩]).get ⟨1, by decide⟩).stayed_count ≤
      ((generate_employer_metrics [⟨1996, "1", 7, 100⟩, ⟨1997, "1", 7, 110⟩,
        ⟨1997, "2", 7, 50⟩]).get ⟨1, by decide⟩).headcount ∧
    0 ≤ ((generate_employer_metrics [⟨1996, "1", 7, 100⟩,
        ⟨1997, "1", 7, 110⟩, ⟨1997, "2", 7, 50⟩]).get
      ⟨1, by decide⟩).retention_rate ∧
    ((generate_employer_metrics [⟨1996, "1", 7, 100⟩, ⟨1997, "1", 7, 110⟩,
        ⟨1997, "2", 7, 50⟩]).get ⟨1, by decide⟩).retention_rate ≤ 1 :=
  claim_C10 [⟨1996, "1", 7, 100⟩, ⟨1997, "1", 7, 110⟩, ⟨1997, "2", 7, 50⟩] _
    (List.get_mem _ _ _) (by decide)

open Analytics in
/-- C6: every employer present in the earliest dataset year gets an
output record with `retention_rate = 0` and `growth_median = 0` (the
fields are present, not absent); for every later employer-year record,
`headcount` is the employer's current-year record count and
`retention_rate = stayed_count / headcount`, defaulting to `0` when the
headcount is `0`. -/
theorem claim_C6 (df : List Fact) (hne : df ≠ []) :
    (∀ e, (∃ f ∈ df, f.year = minYearD df ∧ f.employer_id = e) →
      ∃ r ∈ generate_employer_metrics df, r.employer_id = e ∧
        r.year = minYearD df ∧ r.stayed_count = 0 ∧
        r.retention_rate = 0 ∧ r.growth_median = PFloat.val 0) ∧
    (∀ r ∈ generate_employer_metrics df, r.year ≠ minYearD df →
      r.headcount = (df.filter (fun f =>
        f.employer_id = r.employer_id ∧ f.year = r.year)).length ∧
      r.retention_rate = (if 0 < r.headcount then
        (r.stayed_count : ℚ) / (r.headcount : ℚ) else 0)) := by
  have huy : ∃ y0 rest, uniqueYears df = y0 :: rest := by
    cases h : uniqueYears df with
    | nil =>
        exfalso
        have h1 : (uniqueYears df).length = (df.map (·.year)).dedup.length :=
          length_isort _
        rw [h] at h1
        have h2 : (df.map (·.year)).dedup = [] :=
          List.length_eq_zero.mp h1.symm
        rw [List.dedup_eq_nil] at h2
        exact hne (List.map_eq_nil_iff.mp h2)
    | cons a b => exact ⟨a, b, rfl⟩
  rcases huy with ⟨y0, rest, huy⟩
  have hmin : minYearD df = y0 := by
    unfold minYearD
    rw [huy]
    rfl
  constructor
  · rintro e ⟨f, hf, hfy, hfe⟩
    rw [hmin] at hfy
    have hcur : f ∈ currFacts df y0 :=
      List.mem_filter.mpr ⟨hf, by simp [hfy]⟩
    have hee : e ∈ empIds (currFacts df y0) := by
      unfold empIds
      rw [mem_isort, List.mem_dedup]
      exact List.mem_map.mpr ⟨f, hcur, hfe⟩
    refine ⟨metricFirst df y0 e, ?_, rfl, ?_, rfl, rfl, rfl⟩
    · unfold generate_employer_metrics
      rw [huy]
      exact List.mem_append_left _ (List.mem_map.mpr ⟨e, hee, rfl⟩)
    · rw [hmin]
      rfl
  · intro r hr hy
    rcases mem_gem hr with ⟨y0', rest', huy', ⟨e, he, rfl⟩ | ⟨y, hyr, e, he, rfl⟩⟩
    · exfalso
      apply hy
      rw [metricFirst_year]
      have : y0' = y0 := by
        rw [huy] at huy'
        exact (List.cons_eq_cons.mp huy').1.symm
      rw [this, hmin]
    · constructor
      · rw [metricLater_headcount, List.length_map, metricLater_emp,
          metricLater_year]
      · rw [metricLater_retention]

open Analytics in
/-- Witness for C6: a two-year table where 2 of the 5 current-year
records stayed, giving retention exactly 2/5 = 0.4; the 1996 record has
zeroed retention and growth fields present. -/
theorem claim_C6_witness :
    (∃ r ∈ generate_employer_metrics
        [⟨1996, "1", 7, 100⟩, ⟨1996, "2", 7, 100⟩, ⟨1997, "1", 7, 110⟩,
          ⟨1997, "2", 7, 110⟩, ⟨1997, "3", 7, 110⟩, ⟨1997, "4", 7, 110⟩,
          ⟨1997, "5", 7, 110⟩],
      r.employer_id = 7 ∧
        r.year = minYearD [⟨1996, "1", 7, 100⟩, ⟨1996, "2", 7, 100⟩,
          ⟨1997, "1", 7, 110⟩, ⟨1997, "2", 7, 110⟩, ⟨1997, "3", 7, 110⟩,
          ⟨1997, "4", 7, 110⟩, ⟨1997, "5", 7, 110⟩] ∧
        r.stayed_count = 0 ∧ r.retention_rate = 0 ∧
        r.growth_median = PFloat.val 0) ∧
    ((generate_employer_metrics [⟨1996, "1", 7, 100⟩, ⟨1996, "2", 7, 100⟩,
        ⟨1997, "1", 7, 110⟩, ⟨1997, "2", 7, 110⟩, ⟨1997, "3", 7, 110⟩,
        ⟨1997, "4", 7, 110⟩, ⟨1997, "5", 7, 110⟩]).get
      ⟨1, by decide⟩).retention_rate = 2 / 5 := by
  constructor
  · exact (claim_C6 [⟨1996, "1", 7, 100⟩, ⟨1996, "2", 7, 100⟩,
      ⟨1997, "1", 7, 110⟩, ⟨1997, "2", 7, 110⟩, ⟨1997, "3", 7, 110⟩,
      ⟨1997, "4", 7, 110⟩, ⟨1997, "5", 7, 110⟩] (by decide)).1 7
      ⟨⟨1996, "1", 7, 100⟩, by decide, by decide, by decide⟩
  · have h2 := (claim_C6 [⟨1996, "1", 7, 100⟩, ⟨1996, "2", 7, 100⟩,
      ⟨1997, "1", 7, 110⟩, ⟨1997, "2", 7, 110⟩, ⟨1997, "3", 7, 110⟩,
      ⟨1997, "4", 7, 110⟩, ⟨1997, "5", 7, 110⟩] (by decide)).2
      ((generate_employer_metrics [⟨1996, "1", 7, 100⟩, ⟨1996, "2", 7, 100⟩,
        ⟨1997, "1", 7, 110⟩, ⟨1997, "2", 7, 110⟩, ⟨1997, "3", 7, 110⟩,
        ⟨1997, "4", 7, 110⟩, ⟨1997, "5", 7, 110⟩]).get ⟨1, by decide⟩)
      (List.get_mem _ _ _) (by decide)
    rw [h2.2]
    decide
